import Mathlib

/-!
# KiCodex core — verification of the natural-language specification

Shallow embedding of the KiCodex library service (a Rust program) in Lean 4,
together with theorems settling the specification claims.

Rust's `IndexMap<String, V>` (an insertion-ordered map where inserting an
existing key updates the value in place, keeping the key's position) is
modelled by an association list `List (String × V)` with `lookupIM`,
`insertIM` and `extendIM` mirroring `IndexMap::get`, `IndexMap::insert`
and `IndexMap::extend`.
-/

namespace KiCodex

/-- Ordered string-keyed map, modelling `indexmap::IndexMap<String, α>`. -/
abbrev IMap (α : Type) := List (String × α)

/-- `IndexMap::get`: value of the first (unique, for well-formed maps) entry
with the given key. -/
def lookupIM {α : Type} : IMap α → String → Option α
  | [], _ => none
  | (k', v) :: rest, k => if k' = k then some v else lookupIM rest k

/-- Keys of the map, in order (`IndexMap::keys`). -/
def keysIM {α : Type} (m : IMap α) : List String := m.map Prod.fst

/-- `IndexMap::insert`: if the key is present the value is updated in place
(the entry keeps its position); otherwise the pair is appended. -/
def insertIM {α : Type} : IMap α → String → α → IMap α
  | [], k, v => [(k, v)]
  | (k', v') :: rest, k, v =>
      if k' = k then (k', v) :: rest else (k', v') :: insertIM rest k v

/-- `IndexMap::extend`: repeated `insert` of the other map's entries. -/
def extendIM {α : Type} (m other : IMap α) : IMap α :=
  other.foldl (fun acc kv => insertIM acc kv.1 kv.2) m

theorem lookupIM_insertIM_self {α : Type} (m : IMap α) (k : String) (v : α) :
    lookupIM (insertIM m k v) k = some v := by
  induction m with
  | nil => simp [insertIM, lookupIM]
  | cons hd tl ih =>
      obtain ⟨k', v'⟩ := hd
      by_cases h : k' = k <;> simp [insertIM, lookupIM, h, ih]

theorem lookupIM_insertIM_ne {α : Type} (m : IMap α) {k k' : String} (v : α)
    (h : k ≠ k') : lookupIM (insertIM m k v) k' = lookupIM m k' := by
  induction m with
  | nil => simp [insertIM, lookupIM, h]
  | cons hd tl ih =>
      obtain ⟨k₀, v₀⟩ := hd
      by_cases hk : k₀ = k
      · subst hk
        simp [insertIM, lookupIM, h]
      · simp only [insertIM, if_neg hk, lookupIM]
        by_cases hk' : k₀ = k' <;> simp [hk', ih]

theorem keysIM_cons {α : Type} (k : String) (v : α) (m : IMap α) :
    keysIM ((k, v) :: m) = k :: keysIM m := rfl

theorem mem_keysIM_cons {α : Type} {k k₀ : String} {v₀ : α} {m : IMap α} :
    k ∈ keysIM ((k₀, v₀) :: m) ↔ k = k₀ ∨ k ∈ keysIM m := by
  simp [keysIM]

theorem keysIM_insertIM_mem {α : Type} (m : IMap α) (k : String) (v : α)
    (h : k ∈ keysIM m) : keysIM (insertIM m k v) = keysIM m := by
  induction m with
  | nil => simp [keysIM] at h
  | cons hd tl ih =>
      obtain ⟨k₀, v₀⟩ := hd
      by_cases hk : k₀ = k
      · simp [insertIM, hk, keysIM]
      · have hmem : k ∈ keysIM tl := by
          rcases mem_keysIM_cons.mp h with h' | h'
          · exact absurd h'.symm hk
          · exact h'
        rw [insertIM, if_neg hk, keysIM_cons, keysIM_cons, ih hmem]

theorem keysIM_insertIM_not_mem {α : Type} (m : IMap α) (k : String) (v : α)
    (h : k ∉ keysIM m) : keysIM (insertIM m k v) = keysIM m ++ [k] := by
  induction m with
  | nil => simp [insertIM, keysIM]
  | cons hd tl ih =>
      obtain ⟨k₀, v₀⟩ := hd
      have hk : k₀ ≠ k := fun hEq => h (mem_keysIM_cons.mpr (Or.inl hEq.symm))
      have htl : k ∉ keysIM tl := fun hmem => h (mem_keysIM_cons.mpr (Or.inr hmem))
      rw [insertIM, if_neg hk, keysIM_cons, keysIM_cons, ih htl]
      rfl

theorem insertIM_not_mem_append {α : Type} (m : IMap α) (k : String) (v : α)
    (h : k ∉ keysIM m) : insertIM m k v = m ++ [(k, v)] := by
  induction m with
  | nil => simp [insertIM]
  | cons hd tl ih =>
      obtain ⟨k₀, v₀⟩ := hd
      have hk : k₀ ≠ k := fun hEq => h (mem_keysIM_cons.mpr (Or.inl hEq.symm))
      have htl : k ∉ keysIM tl := fun hmem => h (mem_keysIM_cons.mpr (Or.inr hmem))
      rw [insertIM, if_neg hk, ih htl]
      rfl

theorem extendIM_nil_right {α : Type} (m : IMap α) : extendIM m [] = m := rfl

theorem extendIM_cons {α : Type} (m : IMap α) (k : String) (v : α) (l : IMap α) :
    extendIM m ((k, v) :: l) = extendIM (insertIM m k v) l := rfl

theorem lookupIM_extendIM_not_mem {α : Type} (l : IMap α) :
    ∀ (m : IMap α) (k : String), k ∉ keysIM l →
      lookupIM (extendIM m l) k = lookupIM m k := by
  induction l with
  | nil => intro m k _; rfl
  | cons hd tl ih =>
      intro m k h
      obtain ⟨k₀, v₀⟩ := hd
      have hk : k₀ ≠ k := fun hEq => h (mem_keysIM_cons.mpr (Or.inl hEq.symm))
      have htl : k ∉ keysIM tl := fun hmem => h (mem_keysIM_cons.mpr (Or.inr hmem))
      rw [extendIM_cons, ih _ k htl, lookupIM_insertIM_ne _ _ hk]

theorem lookupIM_extendIM_mem {α : Type} (l : IMap α) :
    ∀ (m : IMap α) (k : String), (keysIM l).Nodup → k ∈ keysIM l →
      lookupIM (extendIM m l) k = lookupIM l k := by
  induction l with
  | nil => intro m k _ h; simp [keysIM] at h
  | cons hd tl ih =>
      intro m k hnd h
      obtain ⟨k₀, v₀⟩ := hd
      rw [keysIM_cons] at hnd
      by_cases hk : k = k₀
      · subst hk
        have htl : k ∉ keysIM tl := (List.nodup_cons.mp hnd).1
        rw [extendIM_cons, lookupIM_extendIM_not_mem _ _ _ htl,
          lookupIM_insertIM_self, lookupIM, if_pos rfl]
      · have hmem : k ∈ keysIM tl := by
          rcases mem_keysIM_cons.mp h with h' | h'
          · exact absurd h' hk
          · exact h'
        rw [extendIM_cons, ih _ k (List.nodup_cons.mp hnd).2 hmem, lookupIM,
          if_neg (fun hEq => hk hEq.symm)]

theorem keysIM_extendIM {α : Type} (l : IMap α) :
    ∀ (m : IMap α), (keysIM l).Nodup →
      keysIM (extendIM m l)
        = keysIM m ++ (keysIM l).filter (fun k => decide (k ∉ keysIM m)) := by
  induction l with
  | nil => intro m _; simp [extendIM, keysIM]
  | cons hd tl ih =>
      intro m hnd
      obtain ⟨k₀, v₀⟩ := hd
      rw [keysIM_cons] at hnd
      have hk₀tl : k₀ ∉ keysIM tl := (List.nodup_cons.mp hnd).1
      have hndtl : (keysIM tl).Nodup := (List.nodup_cons.mp hnd).2
      rw [extendIM_cons, ih _ hndtl, keysIM_cons]
      have hagree : ∀ k ∈ keysIM tl,
          (decide (k ∉ keysIM (insertIM m k₀ v₀)) : Bool)
            = decide (k ∉ keysIM m) := by
        intro k hk
        have hne : k ≠ k₀ := fun hEq => hk₀tl (hEq ▸ hk)
        by_cases hmem : k₀ ∈ keysIM m
        · rw [keysIM_insertIM_mem _ _ _ hmem]
        · rw [keysIM_insertIM_not_mem _ _ _ hmem]
          simp [hne]
      rw [List.filter_congr hagree]
      by_cases hmem : k₀ ∈ keysIM m
      · rw [keysIM_insertIM_mem _ _ _ hmem, List.filter_cons]
        simp [hmem]
      · rw [keysIM_insertIM_not_mem _ _ _ hmem, List.filter_cons]
        simp [hmem]

theorem keysIM_append {α : Type} (m m' : IMap α) :
    keysIM (m ++ m') = keysIM m ++ keysIM m' := by
  simp [keysIM]

theorem extendIM_disjoint_append {α : Type} (l : IMap α) :
    ∀ (m : IMap α), (keysIM l).Nodup → (∀ k ∈ keysIM l, k ∉ keysIM m) →
      extendIM m l = m ++ l := by
  induction l with
  | nil => intro m _ _; simp [extendIM]
  | cons hd tl ih =>
      intro m hnd hdis
      obtain ⟨k₀, v₀⟩ := hd
      rw [keysIM_cons] at hnd
      have hk₀ : k₀ ∉ keysIM m := hdis k₀ (mem_keysIM_cons.mpr (Or.inl rfl))
      rw [extendIM_cons, insertIM_not_mem_append _ _ _ hk₀,
        ih _ (List.nodup_cons.mp hnd).2]
      · simp
      · intro k hk
        rw [keysIM_append]
        intro hmem
        rcases List.mem_append.mp hmem with hmem | hmem
        · exact hdis k (mem_keysIM_cons.mpr (Or.inr hk)) hmem
        · have hkk₀ : k = k₀ := by simpa [keysIM] using hmem
          exact (List.nodup_cons.mp hnd).1 (hkk₀ ▸ hk)

/-! ## CSV store (`src/kicodex-core/src/data/csv_loader.rs`)

A parsed CSV file is its header row plus its data records.  I/O and CSV
syntax errors are outside the model; `load_csv_with_ids` is modelled from
the point where headers and records have been read.  The random
`Uuid::new_v4()` generator is modelled as a function `gen : Nat → String`
applied at successive indices; theorems assume the generated values are
fresh, which is the intended reading of 128-bit random IDs. -/

/-- One row of CSV data (Rust `CsvRow = IndexMap<String, String>`). -/
abbrev CsvRow := IMap String

/-- A CSV file's parsed content: header row and data records. -/
structure CsvFile where
  headers : List String
  records : List (List String)
deriving DecidableEq, Repr

/-- Mirrors the row-building loop of `load_csv_with_ids`:
`for (i, header) in headers.iter().enumerate()` inserting
`record.get(i).unwrap_or("")`; the recursion walks the headers while
dropping one record cell per step, which yields the same indexing. -/
def buildRowAux : CsvRow → List String → List String → CsvRow
  | row, [], _ => row
  | row, h :: hs, vals => buildRowAux (insertIM row h (vals.headD "")) hs vals.tail

def buildRow (headers : List String) (record : List String) : CsvRow :=
  buildRowAux [] headers record

/-- The `id` cell of a row as the Rust code reads it:
`row.get("id").cloned().unwrap_or_default()`. -/
def outIdOf (r : CsvRow) : String := (lookupIM r "id").getD ""

/-- Mirrors `row.insert("id", ..)` rebuild of the no-`id`-column branch:
a fresh map receives `id` first, then every existing entry. -/
def freshIdRow (row : CsvRow) (id : String) : CsvRow :=
  row.foldl (fun acc kv => insertIM acc kv.1 kv.2) (insertIM [] "id" id)

/-- Mirrors the ID-assignment loop of `load_csv_with_ids`.  State:
remaining rows, `seen_ids`, next generator index, `needs_writeback`.
(The source also fills a `used_ids` set, but never reads it; it is
omitted as dead state.) -/
def assignIds (gen : Nat → String) (hasId : Bool) :
    List CsvRow → List String → Nat → Bool → List CsvRow × Nat × Bool
  | [], _, n, wb => ([], n, wb)
  | row :: rest, seen, n, wb =>
    if hasId then
      let id := outIdOf row
      if id = "" ∨ id ∈ seen then
        let newId := gen n
        let out := assignIds gen hasId rest (newId :: seen) (n + 1) true
        (insertIM row "id" newId :: out.1, out.2)
      else
        let out := assignIds gen hasId rest (id :: seen) n wb
        (row :: out.1, out.2)
    else
      let newId := gen n
      let out := assignIds gen hasId rest (newId :: seen) (n + 1) true
      (freshIdRow row newId :: out.1, out.2)

/-- Effect of `write_csv` on the file (temp-file-plus-rename is modelled
as replacing the content): headers come from the first row's keys; each
record lists each header's value, `""` when absent.  An empty row slice
returns without touching the file. -/
def writeCsvFile (file : CsvFile) (rows : List CsvRow) : CsvFile :=
  match rows with
  | [] => file
  | first :: _ =>
    let headers := keysIM first
    { headers := headers
      records := rows.map fun row => headers.map fun h => (lookupIM row h).getD "" }

/-- `load_csv_with_ids`: returns the rows and the resulting on-disk file
(`none` models the `NoHeaders` error). -/
def loadCsvWithIds (gen : Nat → String) (file : CsvFile) :
    Option (List CsvRow × CsvFile) :=
  if file.headers = [] then none
  else
    let hasId := decide ("id" ∈ file.headers)
    let rows := file.records.map (buildRow file.headers)
    let out := assignIds gen hasId rows [] 0 false
    some (out.1, if out.2.2 then writeCsvFile file out.1 else file)

/-- The pure ID stream the assignment loop produces, used to reason about
`assignIds`: keep a non-empty unseen id, otherwise emit the next fresh one. -/
def specAssign (gen : Nat → String) : List String → List String → Nat → List String
  | [], _, _ => []
  | id :: rest, seen, n =>
    if id = "" ∨ id ∈ seen then
      gen n :: specAssign gen rest (gen n :: seen) (n + 1)
    else
      id :: specAssign gen rest (id :: seen) n

theorem lookupIM_of_outIdOf_ne (r : CsvRow) (h : outIdOf r ≠ "") :
    lookupIM r "id" = some (outIdOf r) := by
  unfold outIdOf at h ⊢
  cases hl : lookupIM r "id" with
  | none => rw [hl] at h; simp at h
  | some v => simp [hl]

theorem specAssign_length (gen : Nat → String) (ids : List String) :
    ∀ (seen : List String) (n : Nat),
      (specAssign gen ids seen n).length = ids.length := by
  induction ids with
  | nil => intro seen n; rfl
  | cons id rest ih =>
      intro seen n
      by_cases h : id = "" ∨ id ∈ seen <;> simp [specAssign, h, ih]

theorem assignIds_map_outIdOf (gen : Nat → String) (rows : List CsvRow) :
    ∀ (seen : List String) (n : Nat) (wb : Bool),
      (assignIds gen true rows seen n wb).1.map outIdOf
        = specAssign gen (rows.map outIdOf) seen n := by
  induction rows with
  | nil => intro seen n wb; rfl
  | cons row rest ih =>
      intro seen n wb
      by_cases h : outIdOf row = "" ∨ outIdOf row ∈ seen
      · simp only [assignIds, if_pos h, if_pos trivial, List.map_cons, specAssign]
        refine congrArg₂ _ ?_ (ih _ _ _)
        simp [outIdOf, lookupIM_insertIM_self]
      · simp only [assignIds, if_neg h, if_pos trivial, List.map_cons, specAssign]
        exact congrArg _ (ih _ _ _)

theorem assignIds_map_outIdOf_noId (gen : Nat → String) (rows : List CsvRow) :
    ∀ (seen : List String) (n : Nat) (wb : Bool),
      (∀ r ∈ rows, "id" ∉ keysIM r) →
      (assignIds gen false rows seen n wb).1.map outIdOf
        = (List.range' n rows.length).map gen := by
  induction rows with
  | nil => intro seen n wb _; rfl
  | cons row rest ih =>
      intro seen n wb hkeys
      simp only [assignIds, List.map_cons, List.length_cons, List.range',
        if_neg (Bool.false_ne_true)]
      refine congrArg₂ _ ?_ (ih _ _ _ (fun r hr => hkeys r (List.mem_cons_of_mem _ hr)))
      have hid : "id" ∉ keysIM row := hkeys row (List.mem_cons_self _ _)
      show outIdOf (freshIdRow row (gen n)) = gen n
      unfold freshIdRow outIdOf
      have : row.foldl (fun acc kv => insertIM acc kv.1 kv.2) (insertIM [] "id" (gen n))
          = extendIM (insertIM [] "id" (gen n)) row := rfl
      rw [this, lookupIM_extendIM_not_mem _ _ _ hid, lookupIM_insertIM_self]
      rfl

theorem assignIds_length (gen : Nat → String) (hasId : Bool) (rows : List CsvRow) :
    ∀ (seen : List String) (n : Nat) (wb : Bool),
      (assignIds gen hasId rows seen n wb).1.length = rows.length := by
  induction rows with
  | nil => intro seen n wb; rfl
  | cons row rest ih =>
      intro seen n wb
      cases hasId with
      | false => simp [assignIds, ih]
      | true =>
          by_cases h : outIdOf row = "" ∨ outIdOf row ∈ seen <;>
            simp [assignIds, h, ih]

theorem specAssign_invariants (gen : Nat → String)
    (Hinj : Function.Injective gen) (Hne : ∀ m, gen m ≠ "") (ids : List String) :
    ∀ (seen : List String) (n : Nat),
      (∀ m, n ≤ m → gen m ∉ seen) →
      (∀ m, n ≤ m → gen m ∉ ids) →
      (∀ v ∈ specAssign gen ids seen n, v ≠ "" ∧ v ∉ seen) ∧
        (specAssign gen ids seen n).Nodup := by
  induction ids with
  | nil => intro seen n _ _; exact ⟨by simp [specAssign], by simp [specAssign]⟩
  | cons id rest ih =>
      intro seen n Hseen Hfresh
      by_cases h : id = "" ∨ id ∈ seen
      · have Hseen' : ∀ m, n + 1 ≤ m → gen m ∉ gen n :: seen := by
          intro m hm
          rw [List.mem_cons]
          rintro (hEq | hmem)
          · exact absurd (Hinj hEq) (by omega)
          · exact Hseen m (by omega) hmem
        have Hfresh' : ∀ m, n + 1 ≤ m → gen m ∉ rest := fun m hm hmem =>
          Hfresh m (by omega) (List.mem_cons_of_mem _ hmem)
        obtain ⟨ihMem, ihNd⟩ := ih (gen n :: seen) (n + 1) Hseen' Hfresh'
        rw [specAssign, if_pos h]
        constructor
        · intro v hv
          rcases List.mem_cons.mp hv with hEq | hmem
          · exact hEq ▸ ⟨Hne n, Hseen n le_rfl⟩
          · exact ⟨(ihMem v hmem).1,
              fun hs => (ihMem v hmem).2 (List.mem_cons_of_mem _ hs)⟩
        · rw [List.nodup_cons]
          exact ⟨fun hmem => (ihMem _ hmem).2 (List.mem_cons_self _ _), ihNd⟩
      · push_neg at h
        have Hseen' : ∀ m, n ≤ m → gen m ∉ id :: seen := by
          intro m hm
          rw [List.mem_cons]
          rintro (hEq | hmem)
          · exact Hfresh m hm (hEq ▸ (List.mem_cons_self _ _))
          · exact Hseen m hm hmem
        have Hfresh' : ∀ m, n ≤ m → gen m ∉ rest := fun m hm hmem =>
          Hfresh m hm (List.mem_cons_of_mem _ hmem)
        obtain ⟨ihMem, ihNd⟩ := ih (id :: seen) n Hseen' Hfresh'
        rw [specAssign, if_neg (by push_neg; exact h)]
        constructor
        · intro v hv
          rcases List.mem_cons.mp hv with hEq | hmem
          · exact hEq ▸ ⟨h.1, h.2⟩
          · exact ⟨(ihMem v hmem).1,
              fun hs => (ihMem v hmem).2 (List.mem_cons_of_mem _ hs)⟩
        · rw [List.nodup_cons]
          exact ⟨fun hmem => (ihMem _ hmem).2 (List.mem_cons_self _ _), ihNd⟩

theorem specAssign_characterization (gen : Nat → String)
    (Hinj : Function.Injective gen) (_Hne : ∀ m, gen m ≠ "") (ids : List String) :
    ∀ (seen : List String) (n : Nat),
      (∀ m, n ≤ m → gen m ∉ seen) →
      (∀ m, n ≤ m → gen m ∉ ids) →
      ∀ (i : Nat) (hi : i < ids.length) (hi' : i < (specAssign gen ids seen n).length),
        ((specAssign gen ids seen n).get ⟨i, hi'⟩ = ids.get ⟨i, hi⟩ ∧
          ids.get ⟨i, hi⟩ ≠ "" ∧ ids.get ⟨i, hi⟩ ∉ seen ∧
          ids.get ⟨i, hi⟩ ∉ ids.take i) ∨
        ((∃ m, (specAssign gen ids seen n).get ⟨i, hi'⟩ = gen m) ∧
          (ids.get ⟨i, hi⟩ = "" ∨ ids.get ⟨i, hi⟩ ∈ seen ∨
            ids.get ⟨i, hi⟩ ∈ ids.take i)) := by
  induction ids with
  | nil => intro seen n _ _ i hi; simp at hi
  | cons id rest ih =>
      intro seen n Hseen Hfresh i hi hi'
      by_cases h : id = "" ∨ id ∈ seen
      · have hout : specAssign gen (id :: rest) seen n
            = gen n :: specAssign gen rest (gen n :: seen) (n + 1) := by
          rw [specAssign, if_pos h]
        cases i with
        | zero =>
            right
            refine ⟨⟨n, ?_⟩, ?_⟩
            · simp only [List.get_eq_getElem, hout, List.getElem_cons_zero]
            · have hg : (id :: rest).get ⟨0, hi⟩ = id := rfl
              rw [hg]
              rcases h with h | h
              · exact Or.inl h
              · exact Or.inr (Or.inl h)
        | succ j =>
            have Hseen' : ∀ m, n + 1 ≤ m → gen m ∉ gen n :: seen := by
              intro m hm
              rw [List.mem_cons]
              rintro (hEq | hmem)
              · exact absurd (Hinj hEq) (by omega)
              · exact Hseen m (by omega) hmem
            have Hfresh' : ∀ m, n + 1 ≤ m → gen m ∉ rest := fun m hm hmem =>
              Hfresh m (by omega) (List.mem_cons_of_mem _ hmem)
            have hj : j < rest.length := by simpa using hi
            have hj' : j < (specAssign gen rest (gen n :: seen) (n + 1)).length := by
              rw [specAssign_length]; exact hj
            have := ih (gen n :: seen) (n + 1) Hseen' Hfresh' j hj hj'
            have hiEq : (id :: rest).get ⟨j + 1, hi⟩ = rest.get ⟨j, hj⟩ := rfl
            have houtEq : (specAssign gen (id :: rest) seen n).get ⟨j + 1, hi'⟩
                = (specAssign gen rest (gen n :: seen) (n + 1)).get ⟨j, hj'⟩ := by
              simp only [List.get_eq_getElem, hout, List.getElem_cons_succ]
            rw [hiEq, houtEq, List.take_succ_cons]
            have hgenNe : gen n ≠ rest.get ⟨j, hj⟩ := by
              intro hEq
              exact Hfresh n le_rfl
                (hEq ▸ List.mem_cons_of_mem _ (rest.get_mem j hj))
            rcases this with ⟨hEq, hne, hnseen, hntake⟩ | ⟨⟨m, hEq⟩, hcond⟩
            · left
              have hnseen₀ : rest.get ⟨j, hj⟩ ∉ seen := fun hs =>
                hnseen (List.mem_cons_of_mem _ hs)
              refine ⟨hEq, hne, hnseen₀, ?_⟩
              rw [List.mem_cons]
              rintro (hEq' | hmem)
              · rcases h with h | h
                · exact hne (hEq' ▸ h)
                · exact hnseen₀ (hEq' ▸ h)
              · exact hntake hmem
            · right
              refine ⟨⟨m, hEq⟩, ?_⟩
              rcases hcond with hc | hc | hc
              · exact Or.inl hc
              · rcases List.mem_cons.mp hc with hEq' | hmem
                · exact absurd hEq'.symm hgenNe
                · exact Or.inr (Or.inl hmem)
              · exact Or.inr (Or.inr (List.mem_cons_of_mem _ hc))
      · push_neg at h
        have hout : specAssign gen (id :: rest) seen n
            = id :: specAssign gen rest (id :: seen) n := by
          rw [specAssign, if_neg (by push_neg; exact h)]
        cases i with
        | zero =>
            left
            refine ⟨?_, h.1, h.2, by simp⟩
            simp only [List.get_eq_getElem, hout, List.getElem_cons_zero]
        | succ j =>
            have Hseen' : ∀ m, n ≤ m → gen m ∉ id :: seen := by
              intro m hm
              rw [List.mem_cons]
              rintro (hEq | hmem)
              · exact Hfresh m hm (hEq ▸ (List.mem_cons_self _ _))
              · exact Hseen m hm hmem
            have Hfresh' : ∀ m, n ≤ m → gen m ∉ rest := fun m hm hmem =>
              Hfresh m hm (List.mem_cons_of_mem _ hmem)
            have hj : j < rest.length := by simpa using hi
            have hj' : j < (specAssign gen rest (id :: seen) n).length := by
              rw [specAssign_length]; exact hj
            have := ih (id :: seen) n Hseen' Hfresh' j hj hj'
            have hiEq : (id :: rest).get ⟨j + 1, hi⟩ = rest.get ⟨j, hj⟩ := rfl
            have houtEq : (specAssign gen (id :: rest) seen n).get ⟨j + 1, hi'⟩
                = (specAssign gen rest (id :: seen) n).get ⟨j, hj'⟩ := by
              simp only [List.get_eq_getElem, hout, List.getElem_cons_succ]
            rw [hiEq, houtEq, List.take_succ_cons]
            rcases this with ⟨hEq, hne, hnseen, hntake⟩ | ⟨⟨m, hEq⟩, hcond⟩
            · left
              refine ⟨hEq, hne, fun hs => hnseen (List.mem_cons_of_mem _ hs), ?_⟩
              rw [List.mem_cons]
              rintro (hEq' | hmem)
              · exact hnseen (hEq' ▸ (List.mem_cons_self _ _))
              · exact hntake hmem
            · right
              refine ⟨⟨m, hEq⟩, ?_⟩
              rcases hcond with hc | hc | hc
              · exact Or.inl hc
              · rcases List.mem_cons.mp hc with hEq' | hmem
                · exact Or.inr (Or.inr (hEq' ▸ (List.mem_cons_self _ _)))
                · exact Or.inr (Or.inl hmem)
              · exact Or.inr (Or.inr (List.mem_cons_of_mem _ hc))

theorem buildRowAux_keys_not_mem (k : String) :
    ∀ (hs : List String) (vals : List String) (row : CsvRow),
      k ∉ hs → k ∉ keysIM row → k ∉ keysIM (buildRowAux row hs vals) := by
  intro hs
  induction hs with
  | nil => intro vals row _ hrow; exact hrow
  | cons h hs ih =>
      intro vals row hhs hrow
      have hne : k ≠ h := fun hEq => hhs (hEq ▸ (List.mem_cons_self _ _))
      have hhs' : k ∉ hs := fun hmem => hhs (List.mem_cons_of_mem _ hmem)
      refine ih _ _ hhs' ?_
      by_cases hmem : h ∈ keysIM row
      · rw [keysIM_insertIM_mem _ _ _ hmem]; exact hrow
      · rw [keysIM_insertIM_not_mem _ _ _ hmem]
        intro hk
        rcases List.mem_append.mp hk with hk | hk
        · exact hrow hk
        · exact hne (by simpa using hk)

theorem buildRow_id_not_mem (headers : List String) (record : List String)
    (h : "id" ∉ headers) : "id" ∉ keysIM (buildRow headers record) := by
  refine buildRowAux_keys_not_mem _ _ _ _ h ?_
  simp [keysIM]

/-- The ID-rewrite policy of `load_csv_with_ids` when an `id` column exists:
a row whose `id` cell is non-empty and does not duplicate an earlier row's
`id` keeps its value; a row whose `id` cell is empty or duplicates an
earlier row's `id` receives a freshly generated one. -/
def IdAssignmentPolicy (gen : Nat → String) (origIds : List String)
    (rows : List CsvRow) : Prop :=
  ∀ (i : Nat) (hi : i < origIds.length) (hr : i < rows.length),
    (origIds.get ⟨i, hi⟩ ≠ "" ∧ origIds.get ⟨i, hi⟩ ∉ origIds.take i →
      outIdOf (rows.get ⟨i, hr⟩) = origIds.get ⟨i, hi⟩) ∧
    (origIds.get ⟨i, hi⟩ = "" ∨ origIds.get ⟨i, hi⟩ ∈ origIds.take i →
      ∃ m, outIdOf (rows.get ⟨i, hr⟩) = gen m)

/-- C1: for every CSV file `load_csv_with_ids` loads successfully, every
returned row carries a non-empty `id`, all `id` values are pairwise
distinct, and (when an `id` column exists) a row whose `id` is empty or
duplicates an earlier row's `id` receives a freshly generated id while a
row whose `id` is non-empty and first-of-its-value keeps it.  Freshness of
`Uuid::new_v4()` is expressed by the hypotheses on `gen`. -/
theorem load_csv_ids_unique_nonempty (gen : Nat → String) (file : CsvFile)
    (origIds : List String)
    (hIds : origIds = (file.records.map (buildRow file.headers)).map outIdOf)
    (Hinj : Function.Injective gen) (Hne : ∀ m, gen m ≠ "")
    (Hfresh : ∀ m, gen m ∉ origIds)
    (Hhdr : file.headers ≠ []) :
    ∃ rows outFile, loadCsvWithIds gen file = some (rows, outFile) ∧
      (∀ r ∈ rows, ∃ id, lookupIM r "id" = some id ∧ id ≠ "") ∧
      (rows.map outIdOf).Nodup ∧
      rows.length = origIds.length ∧
      ("id" ∈ file.headers → IdAssignmentPolicy gen origIds rows) := by
  have hload : loadCsvWithIds gen file =
      some ((assignIds gen (decide ("id" ∈ file.headers))
          (file.records.map (buildRow file.headers)) [] 0 false).1,
        if (assignIds gen (decide ("id" ∈ file.headers))
            (file.records.map (buildRow file.headers)) [] 0 false).2.2
        then writeCsvFile file (assignIds gen (decide ("id" ∈ file.headers))
            (file.records.map (buildRow file.headers)) [] 0 false).1
        else file) := by
    unfold loadCsvWithIds
    rw [if_neg Hhdr]
  have Hseen0 : ∀ m, 0 ≤ m → gen m ∉ ([] : List String) := by simp
  have Hfresh0 : ∀ m, 0 ≤ m → gen m ∉ origIds := fun m _ => Hfresh m
  by_cases hid : "id" ∈ file.headers
  · have hd : decide ("id" ∈ file.headers) = true := decide_eq_true hid
    rw [hd] at hload
    refine ⟨(assignIds gen true (file.records.map (buildRow file.headers)) [] 0 false).1,
      _, hload, ?_, ?_, ?_, ?_⟩
    · intro r hr
      have hmem : outIdOf r ∈ specAssign gen origIds [] 0 := by
        rw [hIds, ← assignIds_map_outIdOf]
        exact List.mem_map_of_mem _ hr
      have hne : outIdOf r ≠ "" :=
        ((specAssign_invariants gen Hinj Hne origIds [] 0 Hseen0
          (hIds ▸ Hfresh0)).1 _ hmem).1
      exact ⟨outIdOf r, lookupIM_of_outIdOf_ne r hne, hne⟩
    · rw [assignIds_map_outIdOf, ← hIds]
      exact (specAssign_invariants gen Hinj Hne origIds [] 0 Hseen0
        (hIds ▸ Hfresh0)).2
    · rw [assignIds_length, List.length_map, hIds, List.length_map,
        List.length_map]
    · intro _ i hi hr
      have hlen : (specAssign gen origIds [] 0).length = origIds.length :=
        specAssign_length gen origIds [] 0
      have hmapEq : (assignIds gen true (file.records.map (buildRow file.headers))
          [] 0 false).1.map outIdOf = specAssign gen origIds [] 0 := by
        rw [assignIds_map_outIdOf, ← hIds]
      have hi' : i < (specAssign gen origIds [] 0).length := by omega
      have hgetEq : outIdOf ((assignIds gen true
            (file.records.map (buildRow file.headers)) [] 0 false).1.get ⟨i, hr⟩)
          = (specAssign gen origIds [] 0).get ⟨i, hi'⟩ := by
        have := congrArg (fun l => l.get? i) hmapEq
        simp only [List.get?_eq_getElem?] at this
        rw [List.get_eq_getElem, List.get_eq_getElem]
        have h1 : i < ((assignIds gen true (file.records.map (buildRow file.headers))
            [] 0 false).1.map outIdOf).length := by
          rw [List.length_map]; exact hr
        calc outIdOf ((assignIds gen true (file.records.map (buildRow file.headers))
              [] 0 false).1[i])
            = ((assignIds gen true (file.records.map (buildRow file.headers))
              [] 0 false).1.map outIdOf)[i] := by rw [List.getElem_map]
          _ = (specAssign gen origIds [] 0)[i] := by
              simp only [hmapEq]
      have hchar := specAssign_characterization gen Hinj Hne origIds [] 0 Hseen0
        Hfresh0 i hi hi'
      constructor
      · rintro ⟨hne, hntake⟩
        rcases hchar with ⟨hEq, _⟩ | ⟨_, hcond⟩
        · rw [hgetEq, hEq]
        · rcases hcond with hc | hc | hc
          · exact absurd hc hne
          · simp at hc
          · exact absurd hc hntake
      · intro hcond0
        rcases hchar with ⟨_, hne, _, hntake⟩ | ⟨⟨m, hEq⟩, _⟩
        · rcases hcond0 with hc | hc
          · exact absurd hc hne
          · exact absurd hc hntake
        · exact ⟨m, by rw [hgetEq, hEq]⟩
  · have hd : decide ("id" ∈ file.headers) = false := decide_eq_false hid
    have hkeys : ∀ r ∈ file.records.map (buildRow file.headers),
        "id" ∉ keysIM r := by
      intro r hr
      obtain ⟨rec, _, hEq⟩ := List.mem_map.mp hr
      exact hEq ▸ buildRow_id_not_mem _ _ hid
    have hmapEq : (assignIds gen false (file.records.map (buildRow file.headers))
        [] 0 false).1.map outIdOf
        = (List.range' 0 (file.records.map (buildRow file.headers)).length).map gen :=
      assignIds_map_outIdOf_noId gen _ [] 0 false hkeys
    rw [hd] at hload
    refine ⟨(assignIds gen false (file.records.map (buildRow file.headers)) [] 0 false).1,
      _, hload, ?_, ?_, ?_, fun h => absurd h hid⟩
    · intro r hr
      have hmem : outIdOf r ∈ (List.range' 0
          (file.records.map (buildRow file.headers)).length).map gen := by
        rw [← hmapEq]
        exact List.mem_map_of_mem _ hr
      obtain ⟨m, _, hEq⟩ := List.mem_map.mp hmem
      have hne : outIdOf r ≠ "" := hEq ▸ Hne m
      exact ⟨outIdOf r, lookupIM_of_outIdOf_ne r hne, hne⟩
    · rw [hmapEq]
      exact (List.nodup_range' _ _).map Hinj
    · rw [assignIds_length, List.length_map, hIds, List.length_map,
        List.length_map]

theorem load_csv_ids_unique_nonempty_witness :
    ∃ rows outFile,
      loadCsvWithIds (fun n => String.replicate (n + 2) 'u')
          ⟨["id", "mpn"], [["1", "a"], ["1", "b"], ["", "c"]]⟩
        = some (rows, outFile) ∧
      (∀ r ∈ rows, ∃ id, lookupIM r "id" = some id ∧ id ≠ "") ∧
      (rows.map outIdOf).Nodup ∧
      rows.length = (["1", "1", ""] : List String).length ∧
      ("id" ∈ (["id", "mpn"] : List String) →
        IdAssignmentPolicy (fun n => String.replicate (n + 2) 'u')
          ["1", "1", ""] rows) :=
  load_csv_ids_unique_nonempty (fun n => String.replicate (n + 2) 'u')
    ⟨["id", "mpn"], [["1", "a"], ["1", "b"], ["", "c"]]⟩ ["1", "1", ""]
    (by decide)
    (fun m k h => by
      have hlen := congrArg String.length h
      simp only [String.length_replicate] at hlen
      omega)
    (fun m h => by
      have hlen := congrArg String.length h
      simp only [String.length_replicate] at hlen
      simp at hlen)
    (fun m h => by
      have hle : ∀ s ∈ (["1", "1", ""] : List String), s.length ≤ 1 := by decide
      have h2 := hle _ h
      rw [String.length_replicate] at h2
      omega)
    (by decide)

/-- C10: `write_csv` on an empty row slice returns `Ok` without touching the
file, and `load_csv_with_ids` on a headers-only file returns no rows and
never rewrites the file (in particular it inserts no `id` column on disk). -/
theorem write_csv_empty_noop_and_headers_only (gen : Nat → String)
    (file : CsvFile) (hhdr : file.headers ≠ []) (hrec : file.records = []) :
    writeCsvFile file [] = file ∧
    loadCsvWithIds gen file = some ([], file) := by
  refine ⟨rfl, ?_⟩
  unfold loadCsvWithIds
  rw [if_neg hhdr]
  simp [hrec, assignIds]

theorem write_csv_empty_noop_witness :
    writeCsvFile ⟨["mpn", "value"], []⟩ [] = ⟨["mpn", "value"], []⟩ ∧
    loadCsvWithIds (fun _ => "u") ⟨["mpn", "value"], []⟩
      = some ([], ⟨["mpn", "value"], []⟩) :=
  write_csv_empty_noop_and_headers_only (fun _ => "u") ⟨["mpn", "value"], []⟩
    (by decide) rfl

/-! ## Schema resolver (`src/kicodex-core/src/data/schema.rs`)

A schemas directory is modelled by the optional `_base.yaml` content plus
the other parsed schema files keyed by name.  YAML parsing is outside the
model; `RawSchema` is the parsed file.  The unbounded Rust recursion on
`based_on` (cycles are undefined behavior per the spec) is modelled with a
fuel parameter; exhausted fuel is a model-only error. -/

/-- Parsed field descriptor (`FieldDef`). -/
structure FieldDef where
  display_name : String
  required : Bool
  visible : Bool
  description : Option String
  field_type : Option String
deriving DecidableEq, Repr

/-- Parsed schema file (`RawSchema`): tri-state exclusion flags plus the
ordered field map. -/
structure RawSchema where
  based_on : Option String
  exclude_from_bom : Option Bool
  exclude_from_board : Option Bool
  exclude_from_sim : Option Bool
  fields : IMap FieldDef
deriving DecidableEq, Repr

/-- Fully resolved schema (`ResolvedSchema`). -/
structure ResolvedSchema where
  exclude_from_bom : Bool
  exclude_from_board : Bool
  exclude_from_sim : Bool
  fields : IMap FieldDef
deriving DecidableEq, Repr

inductive SchemaErr
  | missingBase
  | missingParent (name : String)
  | outOfFuel
deriving DecidableEq, Repr

/-- Directory of parsed schema files: the `_base.yaml` content (when the
file exists) and the remaining `<name>.yaml` files keyed by name. -/
structure SchemaDir where
  base : Option RawSchema
  files : List (String × RawSchema)
deriving Repr

/-- Resolution of the `_base` schema (the duplicated block of
`load_schema` used both for the `_base` early return and for a `_base`
parent). -/
def resolveBase (dir : SchemaDir) : Except SchemaErr ResolvedSchema :=
  match dir.base with
  | none => .error .missingBase
  | some base =>
      .ok { exclude_from_bom := base.exclude_from_bom.getD false
            exclude_from_board := base.exclude_from_board.getD false
            exclude_from_sim := base.exclude_from_sim.getD false
            fields := base.fields }

/-- Look up a schema file `<name>.yaml` in the directory. -/
def findSchemaFile (dir : SchemaDir) (name : String) : Option RawSchema :=
  (dir.files.find? (fun kv => kv.1 == name)).map Prod.snd

/-- `load_schema`: resolve a named schema, merging one parent via
`fields.extend(parent.fields); fields.extend(raw.fields)` and resolving
each exclusion flag as `raw.flag.unwrap_or(parent.flag)`. -/
def loadSchema (dir : SchemaDir) : Nat → String → Except SchemaErr ResolvedSchema
  | 0, _ => .error .outOfFuel
  | fuel + 1, name =>
    if name = "_base" then resolveBase dir
    else
      match findSchemaFile dir name with
      | none => .error (.missingParent name)
      | some raw =>
        match raw.based_on with
        | none =>
            .ok { exclude_from_bom := raw.exclude_from_bom.getD false
                  exclude_from_board := raw.exclude_from_board.getD false
                  exclude_from_sim := raw.exclude_from_sim.getD false
                  fields := extendIM [] raw.fields }
        | some parentName => do
            let parent ← if parentName = "_base" then resolveBase dir
              else loadSchema dir fuel parentName
            .ok { exclude_from_bom := raw.exclude_from_bom.getD parent.exclude_from_bom
                  exclude_from_board := raw.exclude_from_board.getD parent.exclude_from_board
                  exclude_from_sim := raw.exclude_from_sim.getD parent.exclude_from_sim
                  fields := extendIM (extendIM [] parent.fields) raw.fields }

/-- The parent-resolution step of `load_schema` for a declared parent name. -/
def resolveParent (dir : SchemaDir) (fuel : Nat) (parentName : String) :
    Except SchemaErr ResolvedSchema :=
  if parentName = "_base" then resolveBase dir else loadSchema dir fuel parentName

theorem loadSchema_with_parent (dir : SchemaDir) (fuel : Nat) (name : String)
    (raw : RawSchema) (parentName : String) (parent : ResolvedSchema)
    (hname : name ≠ "_base")
    (hfile : findSchemaFile dir name = some raw)
    (hparent : raw.based_on = some parentName)
    (hres : resolveParent dir fuel parentName = .ok parent) :
    loadSchema dir (fuel + 1) name
      = .ok { exclude_from_bom := raw.exclude_from_bom.getD parent.exclude_from_bom
              exclude_from_board := raw.exclude_from_board.getD parent.exclude_from_board
              exclude_from_sim := raw.exclude_from_sim.getD parent.exclude_from_sim
              fields := extendIM (extendIM [] parent.fields) raw.fields } := by
  unfold loadSchema
  rw [if_neg hname, hfile]
  simp only [hparent]
  unfold resolveParent at hres
  by_cases hb : parentName = "_base"
  · rw [if_pos hb] at hres
    rw [if_pos hb, hres]
    rfl
  · rw [if_neg hb] at hres
    rw [if_neg hb, hres]
    rfl

/-- C3: for a schema declaring a parent, the resolved field-key list is the
parent's keys (in the parent's order) followed by the child-only keys (in
the child's order); keys in both map to the child's `FieldDef` at the
parent's position; keys only in the parent keep the parent's `FieldDef`. -/
theorem schema_inheritance_field_merge (dir : SchemaDir) (fuel : Nat)
    (name : String) (raw : RawSchema) (parentName : String)
    (parent out : ResolvedSchema)
    (hname : name ≠ "_base")
    (hfile : findSchemaFile dir name = some raw)
    (hparent : raw.based_on = some parentName)
    (hres : resolveParent dir fuel parentName = .ok parent)
    (hndP : (keysIM parent.fields).Nodup)
    (hndC : (keysIM raw.fields).Nodup)
    (hout : loadSchema dir (fuel + 1) name = .ok out) :
    keysIM out.fields
        = keysIM parent.fields
          ++ (keysIM raw.fields).filter (fun k => decide (k ∉ keysIM parent.fields)) ∧
    (∀ k ∈ keysIM raw.fields, lookupIM out.fields k = lookupIM raw.fields k) ∧
    (∀ k, k ∉ keysIM raw.fields → lookupIM out.fields k = lookupIM parent.fields k) := by
  have hEq := loadSchema_with_parent dir fuel name raw parentName parent hname
    hfile hparent hres
  rw [hout] at hEq
  have hout' := Except.ok.inj hEq
  have hfields : out.fields = extendIM parent.fields raw.fields := by
    rw [hout']
    have hbase : extendIM ([] : IMap FieldDef) parent.fields = parent.fields := by
      rw [extendIM_disjoint_append _ _ hndP (by simp [keysIM])]
      simp
    rw [hbase]
  refine ⟨?_, ?_, ?_⟩
  · rw [hfields]
    exact keysIM_extendIM _ _ hndC
  · intro k hk
    rw [hfields]
    exact lookupIM_extendIM_mem _ _ _ hndC hk
  · intro k hk
    rw [hfields]
    exact lookupIM_extendIM_not_mem _ _ _ hk

/-- Field descriptor used by concrete examples. -/
def fdW (d : String) : FieldDef :=
  { display_name := d, required := false, visible := false
    description := none, field_type := none }

def baseW : RawSchema :=
  { based_on := none, exclude_from_bom := some true, exclude_from_board := none
    exclude_from_sim := none
    fields := [("mpn", fdW "MPN"), ("value", fdW "Value")] }

def childW : RawSchema :=
  { based_on := some "_base", exclude_from_bom := some false
    exclude_from_board := none, exclude_from_sim := none
    fields := [("value", fdW "Val2"), ("extra", fdW "Extra")] }

def dirW : SchemaDir := { base := some baseW, files := [("resistor", childW)] }

def parentW : ResolvedSchema :=
  { exclude_from_bom := true, exclude_from_board := false
    exclude_from_sim := false
    fields := [("mpn", fdW "MPN"), ("value", fdW "Value")] }

def outW : ResolvedSchema :=
  { exclude_from_bom := false, exclude_from_board := false
    exclude_from_sim := false
    fields := [("mpn", fdW "MPN"), ("value", fdW "Val2"), ("extra", fdW "Extra")] }

theorem schema_inheritance_field_merge_witness :
    keysIM outW.fields
      = keysIM parentW.fields
        ++ (keysIM childW.fields).filter
            (fun k => decide (k ∉ keysIM parentW.fields)) :=
  (schema_inheritance_field_merge dirW 0 "resistor" childW "_base" parentW outW
    (by decide) rfl rfl rfl (by decide) (by decide) rfl).1

/-- C4: for a schema declaring a parent, each of the three exclusion
booleans resolves to the child's value when the child sets it explicitly
(including explicit `false` over a parent's `true`), and to the parent's
resolved value when the child omits it. -/
theorem schema_inheritance_exclusion_flags (dir : SchemaDir) (fuel : Nat)
    (name : String) (raw : RawSchema) (parentName : String)
    (parent out : ResolvedSchema)
    (hname : name ≠ "_base")
    (hfile : findSchemaFile dir name = some raw)
    (hparent : raw.based_on = some parentName)
    (hres : resolveParent dir fuel parentName = .ok parent)
    (hout : loadSchema dir (fuel + 1) name = .ok out) :
    (∀ b, raw.exclude_from_bom = some b → out.exclude_from_bom = b) ∧
    (raw.exclude_from_bom = none → out.exclude_from_bom = parent.exclude_from_bom) ∧
    (∀ b, raw.exclude_from_board = some b → out.exclude_from_board = b) ∧
    (raw.exclude_from_board = none → out.exclude_from_board = parent.exclude_from_board) ∧
    (∀ b, raw.exclude_from_sim = some b → out.exclude_from_sim = b) ∧
    (raw.exclude_from_sim = none → out.exclude_from_sim = parent.exclude_from_sim) := by
  have hEq := loadSchema_with_parent dir fuel name raw parentName parent hname
    hfile hparent hres
  rw [hout] at hEq
  have hout' := Except.ok.inj hEq
  refine ⟨?_, ?_, ?_, ?_, ?_, ?_⟩ <;>
    first
      | (intro b hb; rw [hout']; simp [hb])
      | (intro hb; rw [hout']; simp [hb])

theorem schema_inheritance_exclusion_flags_witness :
    ((∀ b, childW.exclude_from_bom = some b → outW.exclude_from_bom = b) ∧
      (childW.exclude_from_bom = none →
        outW.exclude_from_bom = parentW.exclude_from_bom)) ∧
    (childW.exclude_from_board = none →
      outW.exclude_from_board = parentW.exclude_from_board) :=
  have h := schema_inheritance_exclusion_flags dirW 0 "resistor" childW "_base"
    parentW outW (by decide) rfl rfl rfl rfl
  ⟨⟨h.1, h.2.1⟩, h.2.2.2.1⟩

/-! ## Response mapper (`src/kicodex-core/src/routes/parts.rs`,
`src/kicodex-core/src/models.rs`) -/

/-- A part summary (`PartSummary`). -/
structure PartSummary where
  id : String
  name : String
  description : String
deriving DecidableEq, Repr

/-- A field value in the part detail (`FieldValue`); `visible` is omitted
from the JSON when `none`. -/
structure FieldValue where
  value : String
  visible : Option String
deriving DecidableEq, Repr

/-- Full part detail (`PartDetail`); `symbol_id_str` is serialized as
`symbolIdStr`. -/
structure PartDetail where
  id : String
  name : String
  symbol_id_str : String
  exclude_from_bom : String
  exclude_from_board : String
  exclude_from_sim : String
  fields : IMap FieldValue
deriving DecidableEq, Repr

/-- The `name` computation shared by the summary and the detail:
`row.get("mpn").or_else(|| row.get("value")).cloned().unwrap_or_default()`. -/
def partName (row : CsvRow) : String :=
  ((lookupIM row "mpn").or (lookupIM row "value")).getD ""

/-- One element of the `get_parts_by_category` response. -/
def partSummaryOf (row : CsvRow) : PartSummary :=
  { id := (lookupIM row "id").getD ""
    name := partName row
    description := (lookupIM row "description").getD "" }

/-- `TOP_LEVEL_COLUMNS`: CSV columns excluded from the `fields` map. -/
def TOP_LEVEL_COLUMNS : List String :=
  ["id", "symbol", "exclude_from_bom", "exclude_from_board", "exclude_from_sim"]

/-- `display_name_for`: schema display name, or the raw column name. -/
def displayNameFor (column : String) (schema : ResolvedSchema) : String :=
  ((lookupIM schema.fields column).map (fun f => f.display_name)).getD column

/-- `VISIBLE_BY_DEFAULT`. -/
def VISIBLE_BY_DEFAULT : List String := ["value", "reference"]

/-- `visible_for`: `none` when the field is shown, `some "False"` when
hidden. -/
def visibleFor (column : String) (schema : ResolvedSchema) : Option String :=
  if column ∈ VISIBLE_BY_DEFAULT then none
  else
    match lookupIM schema.fields column with
    | some field => if field.visible then none else some "False"
    | none => some "False"

/-- `bool_to_kicad`. -/
def boolToKicad (b : Bool) : String := if b then "True" else "False"

/-- `bool_str`: normalize a CSV boolean string. -/
def boolStr (s : String) : String :=
  if s.toLower = "true" ∨ s.toLower = "1" ∨ s.toLower = "yes" then "True"
  else "False"

/-- `exclude_flag`: non-empty CSV cell wins, else the schema default. -/
def excludeFlag (row : CsvRow) (field : String) (schemaDefault : Bool) : String :=
  match lookupIM row field with
  | some v => if v = "" then boolToKicad schemaDefault else boolStr v
  | none => boolToKicad schemaDefault

/-- `build_part_detail`. -/
def buildPartDetail (row : CsvRow) (schema : ResolvedSchema) : PartDetail :=
  { id := (lookupIM row "id").getD ""
    name := partName row
    symbol_id_str := (lookupIM row "symbol").getD ""
    exclude_from_bom := excludeFlag row "exclude_from_bom" schema.exclude_from_bom
    exclude_from_board := excludeFlag row "exclude_from_board" schema.exclude_from_board
    exclude_from_sim := excludeFlag row "exclude_from_sim" schema.exclude_from_sim
    fields := row.foldl
      (fun fields kv =>
        if kv.1 ∈ TOP_LEVEL_COLUMNS then fields
        else insertIM fields (displayNameFor kv.1 schema)
          { value := kv.2, visible := visibleFor kv.1 schema }) [] }

/-- A row whose `mpn` column is present but empty. -/
def rowMpnEmpty : CsvRow := [("id", "1"), ("mpn", ""), ("value", "10K")]

/-- The empty resolved schema, for concrete examples. -/
def emptySchema : ResolvedSchema :=
  { exclude_from_bom := false, exclude_from_board := false
    exclude_from_sim := false, fields := [] }

/-- C2 counterexample: on a row whose `mpn` column is present but empty,
the code emits the empty `mpn` value as `name`, not the `value` column as
the claim states. -/
theorem part_name_empty_mpn_counterexample :
    lookupIM rowMpnEmpty "mpn" = some "" ∧
    lookupIM rowMpnEmpty "value" = some "10K" ∧
    (partSummaryOf rowMpnEmpty).name ≠ "10K" ∧
    (buildPartDetail rowMpnEmpty emptySchema).name ≠ "10K" ∧
    (partSummaryOf rowMpnEmpty).name = "" := by
  refine ⟨rfl, rfl, by decide, by decide, rfl⟩

/-- C2 (amended): `name` equals the `mpn` column's value whenever that
column is present (even when empty) and the `value` column's value (empty
when absent) otherwise, identically in the summary and the detail;
`description` in the summary is the `description` column, or the empty
string when absent. -/
theorem part_name_mpn_or_value (row : CsvRow) (schema : ResolvedSchema) :
    (partSummaryOf row).name = partName row ∧
    (buildPartDetail row schema).name = partName row ∧
    (∀ m, lookupIM row "mpn" = some m → partName row = m) ∧
    (lookupIM row "mpn" = none →
      partName row = (lookupIM row "value").getD "") ∧
    (∀ d, lookupIM row "description" = some d →
      (partSummaryOf row).description = d) ∧
    (lookupIM row "description" = none → (partSummaryOf row).description = "") := by
  refine ⟨rfl, rfl, ?_, ?_, ?_, ?_⟩
  · intro m hm
    simp [partName, hm, Option.or]
  · intro hm
    simp [partName, hm, Option.or]
  · intro d hd
    simp [partSummaryOf, hd]
  · intro hd
    simp [partSummaryOf, hd]

theorem part_name_mpn_or_value_witness :
    (partSummaryOf [("mpn", "R1"), ("value", "10K")]).name
        = partName [("mpn", "R1"), ("value", "10K")] ∧
    (buildPartDetail [("mpn", "R1"), ("value", "10K")] emptySchema).name
        = partName [("mpn", "R1"), ("value", "10K")] ∧
    partName [("mpn", "R1"), ("value", "10K")] = "R1" :=
  have h := part_name_mpn_or_value [("mpn", "R1"), ("value", "10K")] emptySchema
  ⟨h.1, h.2.1, h.2.2.1 "R1" rfl⟩

theorem foldl_if_skip {α β : Type} (q : α → Prop) [DecidablePred q]
    (f : β → α → β) (l : List α) :
    ∀ b, l.foldl (fun acc x => if q x then acc else f acc x) b
      = (l.filter (fun x => decide ¬ q x)).foldl f b := by
  induction l with
  | nil => intro b; rfl
  | cons x xs ih =>
      intro b
      by_cases hx : q x
      · simp only [List.foldl_cons, if_pos hx, List.filter_cons]
        rw [ih]
        simp [hx]
      · simp only [List.foldl_cons, if_neg hx, List.filter_cons]
        rw [ih]
        simp [hx]

/-- The entry contributed to the `fields` map by one non-top-level CSV
column: display name mapped to the row value plus visibility. -/
def fieldEntry (schema : ResolvedSchema) (kv : String × String) :
    String × FieldValue :=
  (displayNameFor kv.1 schema,
    { value := kv.2, visible := visibleFor kv.1 schema })

/-- Schema with two columns sharing the display name `X`. -/
def schemaDup : ResolvedSchema :=
  { exclude_from_bom := false, exclude_from_board := false
    exclude_from_sim := false
    fields := [("a", fdW "X"), ("b", fdW "X")] }

def rowDup : CsvRow := [("id", "1"), ("a", "1"), ("b", "2")]

/-- C6 counterexample: when two non-top-level columns share a display
name, the later column's value overwrites the earlier one's in the
`fields` map, so the earlier column does not appear with its own value as
the claim states it should. -/
theorem part_detail_fields_counterexample :
    displayNameFor "a" schemaDup = "X" ∧
    lookupIM rowDup "a" = some "1" ∧
    lookupIM (buildPartDetail rowDup schemaDup).fields "X"
      ≠ some { value := "1", visible := visibleFor "a" schemaDup } ∧
    (buildPartDetail rowDup schemaDup).fields
      = [("X", { value := "2", visible := some "False" })] := by
  refine ⟨rfl, rfl, by decide, by decide⟩

theorem part_detail_fields_spec (row : CsvRow) (schema : ResolvedSchema)
    (hnd : ((row.filter (fun kv => decide (kv.1 ∉ TOP_LEVEL_COLUMNS))).map
        (fun kv => displayNameFor kv.1 schema)).Nodup) :
    (buildPartDetail row schema).fields
      = (row.filter (fun kv => decide (kv.1 ∉ TOP_LEVEL_COLUMNS))).map
          (fieldEntry schema) ∧
    (∀ c, lookupIM schema.fields c = none → displayNameFor c schema = c) ∧
    (∀ c, (visibleFor c schema = none ↔
        c ∈ VISIBLE_BY_DEFAULT ∨
          ∃ f, lookupIM schema.fields c = some f ∧ f.visible = true)) ∧
    (∀ c, visibleFor c schema = none ∨ visibleFor c schema = some "False") := by
  refine ⟨?_, ?_, ?_, ?_⟩
  · have hkeysEq : keysIM ((row.filter (fun kv => decide (kv.1 ∉ TOP_LEVEL_COLUMNS))).map
        (fieldEntry schema))
        = (row.filter (fun kv => decide (kv.1 ∉ TOP_LEVEL_COLUMNS))).map
            (fun kv => displayNameFor kv.1 schema) := by
      simp only [keysIM, List.map_map]
      rfl
    calc (buildPartDetail row schema).fields
        = (row.filter (fun kv => decide (kv.1 ∉ TOP_LEVEL_COLUMNS))).foldl
            (fun fields kv => insertIM fields (displayNameFor kv.1 schema)
              ({ value := kv.2, visible := visibleFor kv.1 schema } : FieldValue))
            [] :=
          foldl_if_skip (fun kv : String × String => kv.1 ∈ TOP_LEVEL_COLUMNS)
            (fun fields kv => insertIM fields (displayNameFor kv.1 schema)
              ({ value := kv.2, visible := visibleFor kv.1 schema } : FieldValue))
            row []
      _ = ((row.filter (fun kv => decide (kv.1 ∉ TOP_LEVEL_COLUMNS))).map
            (fieldEntry schema)).foldl (fun acc p => insertIM acc p.1 p.2) [] := by
          rw [List.foldl_map]
          rfl
      _ = (row.filter (fun kv => decide (kv.1 ∉ TOP_LEVEL_COLUMNS))).map
            (fieldEntry schema) := by
          have hdis : ∀ k ∈ keysIM ((row.filter
              (fun kv => decide (kv.1 ∉ TOP_LEVEL_COLUMNS))).map (fieldEntry schema)),
              k ∉ keysIM ([] : IMap FieldValue) := by
            simp [keysIM]
          have h := extendIM_disjoint_append
            ((row.filter (fun kv => decide (kv.1 ∉ TOP_LEVEL_COLUMNS))).map
              (fieldEntry schema)) [] (hkeysEq ▸ hnd) hdis
          simpa [extendIM] using h
  · intro c hc
    simp [displayNameFor, hc]
  · intro c
    unfold visibleFor
    by_cases hdef : c ∈ VISIBLE_BY_DEFAULT
    · simp [hdef]
    · rw [if_neg hdef]
      cases hf : lookupIM schema.fields c with
      | none => simp [hdef, hf]
      | some f =>
          cases hv : f.visible <;> simp [hdef, hf, hv]
  · intro c
    unfold visibleFor
    by_cases hdef : c ∈ VISIBLE_BY_DEFAULT
    · simp [hdef]
    · rw [if_neg hdef]
      cases hf : lookupIM schema.fields c with
      | none => simp
      | some f => cases hv : f.visible <;> simp [hv]

def schemaVis : ResolvedSchema :=
  { exclude_from_bom := false, exclude_from_board := false
    exclude_from_sim := false
    fields := [("value",
      { display_name := "Value", required := false, visible := true
        description := none, field_type := none }),
      ("description", fdW "Description")] }

def rowVis : CsvRow :=
  [("id", "1"), ("value", "10K"), ("description", "RES"), ("symbol", "Device:R")]

theorem part_detail_fields_spec_witness :
    (buildPartDetail rowVis schemaVis).fields
      = (rowVis.filter (fun kv => decide (kv.1 ∉ TOP_LEVEL_COLUMNS))).map
          (fieldEntry schemaVis) :=
  (part_detail_fields_spec rowVis schemaVis (by decide)).1

/-! ## Auth middleware (`src/kicodex-core/src/middleware.rs`)

Header values and tokens are modelled as character sequences (Rust `str`),
and the runtime registry as the association list of its `(token, library)`
pairs (`DashMap` keys are unique).  Header-to-string conversion failure
(`to_str().ok()` on non-UTF8 bytes) is folded into the absent-header case.
Libraries are opaque here: the middleware only selects one. -/

/-- Rust `str` for the auth layer. -/
abbrev Str := List Char

/-- `str::strip_prefix`. -/
def stripPrefix : Str → Str → Option Str
  | [], s => some s
  | _, [] => none
  | c :: p, d :: s => if c = d then stripPrefix p s else none

/-- Association-list lookup for the runtime registry (`DashMap::get`). -/
def lookupTok {L : Type} : List (Str × L) → Str → Option L
  | [], _ => none
  | (k, v) :: rest, t => if k = t then some v else lookupTok rest t

/-- `auth_middleware`: with exactly one registered token serve its library
unconditionally; otherwise require an `Authorization: Token <value>` header
naming a known token, else reject (401 is `none`). -/
def authMiddleware {L : Type} (reg : List (Str × L)) (header : Option Str) :
    Option L :=
  let tokens := reg.map Prod.fst
  let single : Option L :=
    if tokens.length = 1 then lookupTok reg (tokens.headD []) else none
  match single with
  | some lib => some lib
  | none =>
      match header with
      | none => none
      | some h =>
          match stripPrefix "Token ".toList h with
          | none => none
          | some token => lookupTok reg token

theorem stripPrefix_append (p : Str) : ∀ s : Str, stripPrefix p (p ++ s) = some s := by
  induction p with
  | nil => intro s; simp [stripPrefix]
  | cons c p ih => intro s; simp [stripPrefix, ih]

/-- C5: with exactly one registered token every request is served with that
token's library whatever the header; with zero or several tokens a missing,
malformed or unknown-token header yields 401 and a known token is served
with exactly that token's library. -/
theorem auth_middleware_spec {L : Type} (reg : List (Str × L)) :
    (∀ (t : Str) (lib : L), reg = [(t, lib)] →
      ∀ header, authMiddleware reg header = some lib) ∧
    (reg.length ≠ 1 →
      (authMiddleware reg none = none) ∧
      (∀ h, stripPrefix "Token ".toList h = none →
        authMiddleware reg (some h) = none) ∧
      (∀ t, lookupTok reg t = none →
        authMiddleware reg (some ("Token ".toList ++ t)) = none) ∧
      (∀ t lib, lookupTok reg t = some lib →
        authMiddleware reg (some ("Token ".toList ++ t)) = some lib)) := by
  constructor
  · rintro t lib rfl header
    simp [authMiddleware, lookupTok]
  · intro hlen
    have hsingle : (if (reg.map Prod.fst).length = 1
        then lookupTok reg ((reg.map Prod.fst).headD []) else none) = none := by
      rw [if_neg]
      rw [List.length_map]
      exact hlen
    refine ⟨?_, ?_, ?_, ?_⟩
    · simp only [authMiddleware, hsingle]
    · intro h hstrip
      simp only [authMiddleware, hsingle, hstrip]
    · intro t hlook
      simp only [authMiddleware, hsingle, stripPrefix_append, hlook]
    · intro t lib hlook
      simp only [authMiddleware, hsingle, stripPrefix_append, hlook]

theorem auth_middleware_spec_witness :
    (authMiddleware [("aaa".toList, 1)] none = some 1) ∧
    (authMiddleware ([("aaa".toList, 1), ("bbb".toList, 2)]) none = none) ∧
    (authMiddleware [("aaa".toList, 1), ("bbb".toList, 2)]
        (some "Basic x".toList) = none) ∧
    (authMiddleware [("aaa".toList, 1), ("bbb".toList, 2)]
        (some ("Token ".toList ++ "xxx".toList)) = none) ∧
    (authMiddleware [("aaa".toList, 1), ("bbb".toList, 2)]
        (some ("Token ".toList ++ "bbb".toList)) = some 2) :=
  have h1 := (auth_middleware_spec [("aaa".toList, 1)]).1 "aaa".toList 1 rfl none
  have h2 := (auth_middleware_spec
    [("aaa".toList, 1), ("bbb".toList, 2)]).2 (by decide)
  ⟨h1, h2.1, h2.2.1 "Basic x".toList (by decide),
    h2.2.2.1 "xxx".toList (by decide), h2.2.2.2 "bbb".toList 2 (by decide)⟩

/-! ## Persistent registry (`src/kicodex-core/src/registry.rs`) -/

/-- A persisted project entry (`ProjectEntry`). -/
structure ProjectEntry where
  token : String
  project_path : Option String
  library_path : String
  name : String
  description : Option String
deriving DecidableEq, Repr

/-- The persistent registry (`PersistedRegistry`). -/
structure PersistedRegistry where
  projects : List ProjectEntry
deriving DecidableEq, Repr

/-- The `retain` predicate of `upsert`: `true` keeps the prior entry `p`
when inserting `entry`. -/
def upsertKeeps (entry p : ProjectEntry) : Bool :=
  if entry.project_path = none ∧ p.project_path = none then
    decide (p.library_path ≠ entry.library_path)
  else
    decide (¬ (p.project_path = entry.project_path ∧
      p.library_path = entry.library_path))

/-- `PersistedRegistry::upsert`: remove colliding prior entries, append. -/
def upsert (reg : PersistedRegistry) (entry : ProjectEntry) : PersistedRegistry :=
  { projects := reg.projects.filter (upsertKeeps entry) ++ [entry] }

/-- Two entries collide for the §3 uniqueness invariants: both
project-attached with equal `(project_path, library_path)`, or both
standalone with equal `library_path`. -/
def collides (a b : ProjectEntry) : Prop :=
  (a.project_path ≠ none ∧ a.project_path = b.project_path ∧
    a.library_path = b.library_path) ∨
  (a.project_path = none ∧ b.project_path = none ∧
    a.library_path = b.library_path)

instance (a b : ProjectEntry) : Decidable (collides a b) := by
  unfold collides; infer_instance

/-- The registry uniqueness invariant. -/
def RegInvariant (reg : PersistedRegistry) : Prop :=
  reg.projects.Pairwise (fun a b => ¬ collides a b)

theorem upsertKeeps_of_not_collides (entry p : ProjectEntry)
    (h : upsertKeeps entry p = true) : ¬ collides p entry := by
  unfold upsertKeeps at h
  intro hc
  by_cases hcase : entry.project_path = none ∧ p.project_path = none
  · rw [if_pos hcase] at h
    rcases hc with ⟨hne, _, _⟩ | ⟨_, _, hlib⟩
    · exact hne hcase.2
    · simp at h
      exact h hlib
  · rw [if_neg hcase] at h
    simp at h
    rcases hc with ⟨_, hpp, hlib⟩ | ⟨hp, he, hlib⟩
    · rcases h with h | h
      · exact h hpp
      · exact h hlib
    · exact hcase ⟨he, hp⟩

theorem collides_symm {a b : ProjectEntry} (h : collides a b) : collides b a := by
  rcases h with ⟨hne, hpp, hlib⟩ | ⟨ha, hb, hlib⟩
  · exact Or.inl ⟨by rw [← hpp]; exact hne, hpp.symm, hlib.symm⟩
  · exact Or.inr ⟨hb, ha, hlib.symm⟩

theorem upsert_preserves_invariant (reg : PersistedRegistry)
    (entry : ProjectEntry) (hinv : RegInvariant reg) :
    RegInvariant (upsert reg entry) := by
  unfold RegInvariant upsert
  rw [List.pairwise_append]
  refine ⟨hinv.sublist (List.filter_sublist _), by simp, ?_⟩
  intro a ha b hb
  rw [List.mem_singleton] at hb
  rw [hb]
  exact upsertKeeps_of_not_collides entry a (List.of_mem_filter ha)

/-- C7: after any sequence of `upsert`s on a registry satisfying the
uniqueness invariant (in particular starting from the empty registry), no
two distinct project-attached entries share `(project_path, library_path)`
and no two distinct standalone entries share `library_path`; moreover an
`upsert` of a standalone entry keeps every project-attached entry and an
`upsert` of a project-attached entry keeps every standalone entry. -/
theorem registry_upsert_invariant (reg : PersistedRegistry)
    (es : List ProjectEntry) (hinv : RegInvariant reg) :
    RegInvariant (es.foldl upsert reg) ∧
    RegInvariant (es.foldl upsert { projects := [] }) ∧
    (∀ entry p, entry.project_path = none → p.project_path ≠ none →
      p ∈ reg.projects → p ∈ (upsert reg entry).projects) ∧
    (∀ entry p, entry.project_path ≠ none → p.project_path = none →
      p ∈ reg.projects → p ∈ (upsert reg entry).projects) := by
  have hfold : ∀ (r : PersistedRegistry), RegInvariant r →
      RegInvariant (es.foldl upsert r) := by
    induction es with
    | nil => intro r hr; exact hr
    | cons e es ih =>
        intro r hr
        exact ih _ (upsert_preserves_invariant r e hr)
  refine ⟨hfold reg hinv, hfold _ (by simp [RegInvariant]), ?_, ?_⟩
  · intro entry p hstandalone hattached hp
    unfold upsert
    simp only [List.mem_append]
    left
    rw [List.mem_filter]
    refine ⟨hp, ?_⟩
    unfold upsertKeeps
    rw [if_neg (fun hc => hattached hc.2)]
    simp only [decide_eq_true_eq]
    rintro ⟨hpp, _⟩
    exact hattached (hstandalone ▸ hpp)
  · intro entry p hattached hstandalone hp
    unfold upsert
    simp only [List.mem_append]
    left
    rw [List.mem_filter]
    refine ⟨hp, ?_⟩
    unfold upsertKeeps
    rw [if_neg (fun hc => hattached hc.1)]
    simp only [decide_eq_true_eq]
    rintro ⟨hpp, _⟩
    exact hattached (hstandalone ▸ hpp.symm)

theorem registry_upsert_invariant_witness :
    RegInvariant
      ([⟨"t1", some "/p", "/p/lib", "A", none⟩,
        ⟨"t2", some "/p", "/p/lib", "B", none⟩,
        ⟨"t3", none, "/p/lib", "C", none⟩].foldl upsert { projects := [] }) ∧
    (⟨"t0", some "/p", "/p/lib", "Z", none⟩ : ProjectEntry)
      ∈ (upsert { projects := [⟨"t0", some "/p", "/p/lib", "Z", none⟩] }
          ⟨"t3", none, "/p/lib", "C", none⟩).projects :=
  have h := registry_upsert_invariant
    { projects := [⟨"t0", some "/p", "/p/lib", "Z", none⟩] }
    [⟨"t1", some "/p", "/p/lib", "A", none⟩,
      ⟨"t2", some "/p", "/p/lib", "B", none⟩,
      ⟨"t3", none, "/p/lib", "C", none⟩]
    (by simp [RegInvariant])
  ⟨h.2.1,
    h.2.2.1 ⟨"t3", none, "/p/lib", "C", none⟩ ⟨"t0", some "/p", "/p/lib", "Z", none⟩
      rfl (by simp) (by simp)⟩

/-! ## Manifest and schema key aliases
(`src/kicodex-core/src/data/library.rs`, `src/kicodex-core/src/data/schema.rs`)

Serde `derive(Deserialize)` key handling is modelled at the document
level: a YAML mapping is a key/value list, a field takes the value of the
first entry whose key is the field's declared name or one of its
`#[serde(alias = ...)]` names, unknown keys are ignored, and a missing
non-optional field fails the parse. -/

/-- Manifest-level YAML value: a string or the table list. -/
inductive YVal
  | s (v : String)
  | tables (v : List (List (String × String)))
deriving DecidableEq, Repr

/-- Value of the first entry whose key is among the accepted names. -/
def getField (doc : List (String × YVal)) (names : List String) : Option YVal :=
  (doc.find? (fun kv => names.contains kv.1)).map Prod.snd

def getStr : Option YVal → Option String
  | some (.s v) => some v
  | _ => none

def getTables : Option YVal → Option (List (List (String × String)))
  | some (.tables v) => some v
  | _ => none

def getStrField (doc : List (String × String)) (names : List String) :
    Option String :=
  (doc.find? (fun kv => names.contains kv.1)).map Prod.snd

/-- A table definition (`ComponentTypeDef`). -/
structure ComponentTypeDef where
  file : String
  template : String
  name : String
deriving DecidableEq, Repr

/-- The library manifest (`LibraryManifest`). -/
structure LibraryManifest where
  name : String
  description : Option String
  templates_path : String
  component_types : List ComponentTypeDef
deriving DecidableEq, Repr

/-- `ComponentTypeDef` deserialization: `template` accepts the alias
`schema` (`#[serde(alias = "schema")]`). -/
def parseComponentTypeDef (d : List (String × String)) :
    Option ComponentTypeDef := do
  let file ← getStrField d ["file"]
  let template ← getStrField d ["template", "schema"]
  let name ← getStrField d ["name"]
  pure { file := file, template := template, name := name }

/-- `LibraryManifest` deserialization: `templates_path` accepts the alias
`schemas_path` and `component_types` accepts the alias `tables`
(`#[serde(alias = ...)]`); `description` is optional. -/
def parseLibraryManifest (doc : List (String × YVal)) :
    Option LibraryManifest := do
  let name ← getStr (getField doc ["name"])
  let description := getStr (getField doc ["description"])
  let templates_path ← getStr (getField doc ["templates_path", "schemas_path"])
  let tables ← getTables (getField doc ["component_types", "tables"])
  let component_types ← tables.mapM parseComponentTypeDef
  pure { name := name, description := description
         templates_path := templates_path, component_types := component_types }

/-- Schema-level YAML value: a string, a boolean, or the fields map. -/
inductive SVal
  | s (v : String)
  | b (v : Bool)
  | fs (v : IMap FieldDef)
deriving DecidableEq, Repr

def getSField (doc : List (String × SVal)) (names : List String) : Option SVal :=
  (doc.find? (fun kv => names.contains kv.1)).map Prod.snd

def getSStr : Option SVal → Option String
  | some (.s v) => some v
  | _ => none

def getSBool : Option SVal → Option Bool
  | some (.b v) => some v
  | _ => none

def getSFields : Option SVal → Option (IMap FieldDef)
  | some (.fs v) => some v
  | _ => none

/-- `RawSchema` deserialization: `based_on` accepts the alias `inherits`
(`#[serde(alias = "inherits")]`); `based_on` and the three exclusion flags
default to `none` when absent; `fields` is required. -/
def parseRawSchema (doc : List (String × SVal)) : Option RawSchema := do
  let based_on := getSStr (getSField doc ["based_on", "inherits"])
  let bom := getSBool (getSField doc ["exclude_from_bom"])
  let board := getSBool (getSField doc ["exclude_from_board"])
  let sim := getSBool (getSField doc ["exclude_from_sim"])
  let fields ← getSFields (getSField doc ["fields"])
  pure { based_on := based_on, exclude_from_bom := bom
         exclude_from_board := board, exclude_from_sim := sim, fields := fields }

def tableDocW : List (String × String) :=
  [("file", "r.csv"), ("template", "resistor"), ("name", "Resistors")]

/-- C8 counterexample: the key `part_tables` is not an accepted alias of
`component_types` — the manifest field only declares
`#[serde(alias = "tables")]` — so a manifest using `part_tables` fails to
parse while the same manifest with `component_types` succeeds. -/
theorem manifest_part_tables_counterexample :
    parseLibraryManifest
      [("name", .s "Lib"), ("templates_path", .s "schemas"),
        ("part_tables", .tables [tableDocW])] = none ∧
    parseLibraryManifest
      [("name", .s "Lib"), ("templates_path", .s "schemas"),
        ("component_types", .tables [tableDocW])]
      = some { name := "Lib", description := none, templates_path := "schemas"
               component_types :=
                 [{ file := "r.csv", template := "resistor", name := "Resistors" }] } := by
  refine ⟨rfl, rfl⟩

/-- C8 (amended): the accepted legacy aliases are `schemas_path` for
`templates_path`, `tables` for `component_types`, `schema` for `template`
in a table definition, and `inherits` for `based_on` in a schema file,
each producing the same parsed structure as the current-era key;
`part_tables` is not accepted and makes the manifest fail to parse. -/
theorem manifest_schema_alias_equivalence (n tp : String)
    (tbls : List (List (String × String))) (f t nm p : String)
    (fs : IMap FieldDef) :
    parseLibraryManifest
        [("name", .s n), ("schemas_path", .s tp), ("tables", .tables tbls)]
      = parseLibraryManifest
        [("name", .s n), ("templates_path", .s tp),
          ("component_types", .tables tbls)] ∧
    parseComponentTypeDef [("file", f), ("schema", t), ("name", nm)]
      = parseComponentTypeDef [("file", f), ("template", t), ("name", nm)] ∧
    parseRawSchema [("inherits", .s p), ("fields", .fs fs)]
      = parseRawSchema [("based_on", .s p), ("fields", .fs fs)] ∧
    parseLibraryManifest
        [("name", .s n), ("templates_path", .s tp),
          ("part_tables", .tables tbls)]
      = none := by
  refine ⟨rfl, rfl, rfl, rfl⟩

/-! ## Auto-registration (`src/kicodex-core/src/discovery/auto_register.rs`)

`try_auto_register` is modelled as a state transition over the persistent
registry, the runtime registry (token-keyed map of loaded libraries), and
the project directory's files (name → content).  Library loading from disk
is an oracle `loadLib : String → Option Library` (`None` = load error);
token generation is a stream `gen : Nat → String` with a counter.
`PathBuf::join` is modelled as `dir ++ "/" ++ rel`; `canonicalize` (whose
failure falls back to the joined path) is modelled as that fallback.  The
final registry save goes to the user-config directory, outside the project
directory, and is not part of the modelled state; writes to the project
directory are logged in `writes`. -/

/-- The parts of a loaded library that auto-registration reads
(`LoadedLibrary.name` / `.description`). -/
structure Library where
  name : String
  description : Option String
deriving DecidableEq, Repr

/-- One library reference in a project's `kicodex.yaml`. -/
structure LibRef where
  name : String
  path : String
deriving DecidableEq, Repr

/-- A parsed `kicodex.yaml`. -/
structure ProjectConfig where
  libraries : List LibRef
deriving DecidableEq, Repr

/-- `project_dir.join(rel)`. -/
def joinPath (dir rel : String) : String := dir ++ "/" ++ rel

/-- `resolve_description`. -/
def resolveDescription (name : String) (description : Option String) : String :=
  description.getD ("KiCodex HTTP Library for " ++ name)

/-- `expected_httplib_content`: the deterministic descriptor JSON. -/
def expectedHttplibContent (name description token : String) (port : Nat) :
    String :=
  "\x7b\n    \"meta\": \x7b\n        \"version\": 1.0\n    \x7d,\n    \"name\": \""
    ++ name
    ++ "\",\n    \"description\": \"" ++ description
    ++ "\",\n    \"source\": \x7b\n        \"type\": \"REST_API\",\n        \"api_version\": \"v1\",\n        \"root_url\": \"http://127.0.0.1:"
    ++ toString port
    ++ "\",\n        \"token\": \"" ++ token ++ "\"\n    \x7d\n\x7d"

/-- `<name>.kicad_httplib`. -/
def httplibFileName (name : String) : String := name ++ ".kicad_httplib"

/-- `ensure_httplib_file`: returns the project files after the call and
whether the file was written (it is written exactly when missing or
different from the expected bytes). -/
def ensureHttplibFile (files : IMap String) (name : String)
    (descr : Option String) (token : String) (port : Nat) :
    IMap String × Bool :=
  let fname := httplibFileName name
  let expected := expectedHttplibContent name (resolveDescription name descr)
    token port
  match lookupIM files fname with
  | some existing =>
      if existing = expected then (files, false)
      else (insertIM files fname expected, true)
  | none => (insertIM files fname expected, true)

/-- State threaded through one `try_auto_register` call. -/
structure ARState where
  persisted : PersistedRegistry
  runtime : IMap Library
  files : IMap String
  nextTok : Nat
  newly : Nat
  writes : List String
deriving DecidableEq, Repr

/-- The `existing` lookup of `try_auto_register`: first persisted entry
matching this project path and library name. -/
def findRegistered (persisted : PersistedRegistry) (projectPath name : String) :
    Option ProjectEntry :=
  persisted.projects.find?
    (fun p => p.project_path == some projectPath && p.name == name)

/-- One iteration of the `for lib_ref in &config.libraries` loop. -/
def arStep (gen : Nat → String) (loadLib : String → Option Library)
    (projectPath : String) (port : Nat) (st : ARState) (ref : LibRef) :
    Option ARState :=
  match findRegistered st.persisted projectPath ref.name with
  | some entry =>
      -- already registered: reconcile the descriptor file (I/O errors are
      -- logged and ignored in the source, and absent from the model)
      let out := ensureHttplibFile st.files ref.name entry.description
        entry.token port
      some { st with
        files := out.1
        writes := st.writes ++ (if out.2 then [ref.name] else []) }
  | none =>
      let libraryPath := joinPath projectPath ref.path
      match loadLib libraryPath with
      | none => none
      | some library =>
          let token := gen st.nextTok
          let description := library.description
          some { persisted := upsert st.persisted
                  { token := token, project_path := some projectPath
                    library_path := libraryPath, name := ref.name
                    description := description }
                 runtime := insertIM st.runtime token library
                 files := (ensureHttplibFile st.files ref.name description
                   token port).1
                 nextTok := st.nextTok + 1
                 newly := st.newly + 1
                 writes := st.writes ++
                   (if (ensureHttplibFile st.files ref.name description
                     token port).2 then [ref.name] else []) }

/-- `try_auto_register`: fold the loop over the configured libraries and
return the number of newly registered ones with the final state (`none`
models a returned error). -/
def tryAutoRegister (gen : Nat → String) (loadLib : String → Option Library)
    (projectPath : String) (port : Nat) (config : ProjectConfig)
    (persisted : PersistedRegistry) (runtime : IMap Library)
    (files : IMap String) (n0 : Nat) : Option (Nat × ARState) :=
  (config.libraries.foldlM (arStep gen loadLib projectPath port)
      { persisted := persisted, runtime := runtime, files := files
        nextTok := n0, newly := 0, writes := [] }).map
    (fun st => (st.newly, st))

def genC : Nat → String := fun n => "tok" ++ toString n

def loadLibC : String → Option Library :=
  fun _ => some { name := "L", description := none }

/-- A `kicodex.yaml` listing the same library path under two names. -/
def configC : ProjectConfig :=
  { libraries := [{ name := "x", path := "p" }, { name := "y", path := "p" }] }

def call1C : Option (Nat × ARState) :=
  tryAutoRegister genC loadLibC "P" 1 configC { projects := [] } [] [] 0

def st1C : ARState :=
  match call1C with
  | some (_, st) => st
  | none => { persisted := { projects := [] }, runtime := [], files := []
              nextTok := 0, newly := 0, writes := [] }

/-- C9 counterexample: on a project whose `kicodex.yaml` lists the same
library path under two different names, `try_auto_register` succeeds
(registering 2 libraries), yet the immediately repeated call registers 2
new libraries again and rewrites both descriptor files: each `upsert` of
one name's entry removes the other name's entry (same project path and
library path), so neither entry survives to the next call. -/
theorem auto_register_idempotence_counterexample :
    call1C.map Prod.fst = some 2 ∧
    (tryAutoRegister genC loadLibC "P" 1 configC st1C.persisted st1C.runtime
        st1C.files 2).map Prod.fst = some 2 ∧
    (tryAutoRegister genC loadLibC "P" 1 configC st1C.persisted st1C.runtime
        st1C.files 2).map (fun x => x.2.writes) = some ["x", "y"] := by
  set_option maxRecDepth 4000 in
  refine ⟨rfl, rfl, rfl⟩

theorem str_append_left_cancel {s a b : String} (h : s ++ a = s ++ b) :
    a = b := by
  have hd := congrArg String.data h
  simp only [String.data_append] at hd
  exact String.ext (List.append_cancel_left hd)

theorem joinPath_inj {dir a b : String} (h : joinPath dir a = joinPath dir b) :
    a = b := by
  unfold joinPath at h
  exact str_append_left_cancel h

theorem ensureHttplibFile_lookup_self (files : IMap String) (name : String)
    (descr : Option String) (token : String) (port : Nat) :
    lookupIM (ensureHttplibFile files name descr token port).1
        (httplibFileName name)
      = some (expectedHttplibContent name (resolveDescription name descr)
          token port) := by
  unfold ensureHttplibFile
  cases hl : lookupIM files (httplibFileName name) with
  | none => simp [hl, lookupIM_insertIM_self]
  | some existing =>
      by_cases he : existing
          = expectedHttplibContent name (resolveDescription name descr) token port
      · simp [hl, he]
      · simp [hl, he, lookupIM_insertIM_self]

theorem ensureHttplibFile_lookup_other (files : IMap String) (name : String)
    (descr : Option String) (token : String) (port : Nat) (k : String)
    (hk : k ≠ httplibFileName name) :
    lookupIM (ensureHttplibFile files name descr token port).1 k
      = lookupIM files k := by
  unfold ensureHttplibFile
  cases hl : lookupIM files (httplibFileName name) with
  | none => simp [hl, lookupIM_insertIM_ne _ _ (fun h => hk h.symm)]
  | some existing =>
      by_cases he : existing
          = expectedHttplibContent name (resolveDescription name descr) token port
      · simp [hl, he]
      · simp [hl, he, lookupIM_insertIM_ne _ _ (fun h => hk h.symm)]

theorem ensureHttplibFile_correct (files : IMap String) (name : String)
    (descr : Option String) (token : String) (port : Nat)
    (h : lookupIM files (httplibFileName name)
      = some (expectedHttplibContent name (resolveDescription name descr)
          token port)) :
    ensureHttplibFile files name descr token port = (files, false) := by
  unfold ensureHttplibFile
  simp [h]

theorem pairwise_name_eq {l : List ProjectEntry}
    (h : l.Pairwise (fun a b => a.name ≠ b.name)) :
    ∀ a ∈ l, ∀ b ∈ l, a.name = b.name → a = b := by
  induction l with
  | nil => intro a ha; simp at ha
  | cons hd tl ih =>
      intro a ha b hb heq
      rcases List.mem_cons.mp ha with rfl | ha' <;>
        rcases List.mem_cons.mp hb with rfl | hb'
      · rfl
      · exact absurd heq ((List.pairwise_cons.mp h).1 b hb')
      · exact absurd heq.symm ((List.pairwise_cons.mp h).1 a ha')
      · exact ih (List.pairwise_cons.mp h).2 a ha' b hb' heq

theorem findRegistered_pred (e : ProjectEntry) (pp nm : String) :
    ((e.project_path == some pp && e.name == nm) = true)
      ↔ (e.project_path = some pp ∧ e.name = nm) := by
  simp

/-- The invariant threaded through a `try_auto_register` call: every
project-attached entry of this project came from a processed config
entry; every processed config entry has a persisted entry and a
byte-correct descriptor file; this project's entries have pairwise
distinct names. -/
def ARInv (projectPath : String) (port : Nat) (processed : List LibRef)
    (persisted : PersistedRegistry) (files : IMap String) : Prop :=
  (∀ e ∈ persisted.projects, e.project_path = some projectPath →
    ∃ r ∈ processed, e.name = r.name ∧
      e.library_path = joinPath projectPath r.path) ∧
  (∀ r ∈ processed, ∃ e ∈ persisted.projects,
    e.project_path = some projectPath ∧ e.name = r.name ∧
    lookupIM files (httplibFileName r.name)
      = some (expectedHttplibContent r.name
          (resolveDescription r.name e.description) e.token port)) ∧
  (persisted.projects.filter
      (fun e => e.project_path == some projectPath)).Pairwise
    (fun a b => a.name ≠ b.name)

theorem str_append_right_cancel {s a b : String} (h : a ++ s = b ++ s) :
    a = b := by
  have hd := congrArg String.data h
  simp only [String.data_append] at hd
  exact String.ext (List.append_cancel_right hd)

theorem httplibFileName_inj {a b : String} (h : httplibFileName a = httplibFileName b) :
    a = b := str_append_right_cancel h

/-- A step on an already-registered library whose descriptor file is
byte-correct leaves the state untouched. -/
theorem arStep_registered (gen : Nat → String) (loadLib : String → Option Library)
    (pp : String) (port : Nat) (st : ARState) (ref : LibRef)
    (hinv3 : (st.persisted.projects.filter
        (fun e => e.project_path == some pp)).Pairwise (fun a b => a.name ≠ b.name))
    (e : ProjectEntry) (he : e ∈ st.persisted.projects)
    (hepp : e.project_path = some pp) (hen : e.name = ref.name)
    (hfile : lookupIM st.files (httplibFileName ref.name)
      = some (expectedHttplibContent ref.name
          (resolveDescription ref.name e.description) e.token port)) :
    arStep gen loadLib pp port st ref = some st := by
  have hfind : ∃ e', findRegistered st.persisted pp ref.name = some e' := by
    cases hf : findRegistered st.persisted pp ref.name with
    | some e' => exact ⟨e', rfl⟩
    | none =>
        exfalso
        unfold findRegistered at hf
        rw [List.find?_eq_none] at hf
        exact hf e he ((findRegistered_pred e pp ref.name).mpr ⟨hepp, hen⟩)
  obtain ⟨e', hf⟩ := hfind
  have hf' : st.persisted.projects.find?
      (fun p => p.project_path == some pp && p.name == ref.name) = some e' := hf
  have hpredB := List.find?_some hf'
  have hpred := (findRegistered_pred e' pp ref.name).mp hpredB
  have hmem := List.mem_of_find?_eq_some hf'
  have hee : e' = e :=
    pairwise_name_eq hinv3 e'
      (List.mem_filter.mpr ⟨hmem, by simp [hpred.1]⟩)
      e (List.mem_filter.mpr ⟨he, by simp [hepp]⟩)
      (by rw [hpred.2, hen])
  have hcorrect : ensureHttplibFile st.files ref.name e.description e.token port
      = (st.files, false) :=
    ensureHttplibFile_correct st.files ref.name e.description e.token port hfile
  unfold arStep
  simp only [hf, hee, hcorrect]
  simp

/-- The invariant is preserved by one loop iteration of the first call,
provided no other config entry shares this entry's path under a different
name. -/
theorem arStep_inv (gen : Nat → String) (loadLib : String → Option Library)
    (pp : String) (port : Nat) (processed : List LibRef)
    (st st' : ARState) (ref : LibRef)
    (hpair : ∀ r ∈ processed, r.path = ref.path → r.name = ref.name)
    (hinv : ARInv pp port processed st.persisted st.files)
    (hstep : arStep gen loadLib pp port st ref = some st') :
    ARInv pp port (processed ++ [ref]) st'.persisted st'.files := by
  obtain ⟨inv1, inv2, inv3⟩ := hinv
  unfold arStep at hstep
  cases hf : findRegistered st.persisted pp ref.name with
  | some entry =>
      simp only [hf, Option.some.injEq] at hstep
      subst hstep
      have hf' : st.persisted.projects.find?
          (fun p => p.project_path == some pp && p.name == ref.name)
          = some entry := hf
      have hpredB := List.find?_some hf'
      have hpred := (findRegistered_pred entry pp ref.name).mp hpredB
      have hmem := List.mem_of_find?_eq_some hf'
      refine ⟨?_, ?_, inv3⟩
      · intro e he hepp
        obtain ⟨r, hr, hrn, hrl⟩ := inv1 e he hepp
        exact ⟨r, List.mem_append_left _ hr, hrn, hrl⟩
      · intro r hr
        rcases List.mem_append.mp hr with hr | hr
        · obtain ⟨e, he, hepp, hen, hlook⟩ := inv2 r hr
          by_cases hname : r.name = ref.name
          · have heq : e = entry :=
              pairwise_name_eq inv3 e
                (List.mem_filter.mpr ⟨he, by simp [hepp]⟩)
                entry (List.mem_filter.mpr ⟨hmem, by simp [hpred.1]⟩)
                (by rw [hen, hname, hpred.2])
            refine ⟨e, he, hepp, hen, ?_⟩
            rw [hname]
            rw [heq]
            exact ensureHttplibFile_lookup_self st.files ref.name
              entry.description entry.token port
          · refine ⟨e, he, hepp, hen, ?_⟩
            rw [ensureHttplibFile_lookup_other st.files ref.name entry.description
              entry.token port _ (fun hEq => hname (httplibFileName_inj hEq))]
            exact hlook
        · rw [List.mem_singleton] at hr
          rw [hr]
          refine ⟨entry, hmem, hpred.1, hpred.2, ?_⟩
          exact ensureHttplibFile_lookup_self st.files ref.name
            entry.description entry.token port
  | none =>
      simp only [hf] at hstep
      have hnone : ∀ e ∈ st.persisted.projects,
          ¬ (e.project_path = some pp ∧ e.name = ref.name) := by
        intro e he
        have hf' : st.persisted.projects.find?
            (fun p => p.project_path == some pp && p.name == ref.name)
            = none := hf
        rw [List.find?_eq_none] at hf'
        intro hc
        exact hf' e he ((findRegistered_pred e pp ref.name).mpr hc)
      cases hload : loadLib (joinPath pp ref.path) with
      | none => simp [hload] at hstep
      | some library =>
          simp only [hload, Option.some.injEq] at hstep
          subst hstep
          set newE : ProjectEntry :=
            { token := gen st.nextTok, project_path := some pp
              library_path := joinPath pp ref.path, name := ref.name
              description := library.description } with hnewE
          have hsurvive : ∀ e ∈ st.persisted.projects, e.project_path = some pp →
              upsertKeeps newE e = true := by
            intro e he hepp
            unfold upsertKeeps
            rw [if_neg (by rw [hnewE]; simp)]
            simp only [decide_eq_true_eq]
            rintro ⟨hppEq, hlibEq⟩
            obtain ⟨r', hr', hrn', hrl'⟩ := inv1 e he hepp
            have hjoin : joinPath pp r'.path = joinPath pp ref.path := by
              rw [← hrl']
              exact hlibEq
            have hpatheq : r'.path = ref.path := joinPath_inj hjoin
            have hnameEq : r'.name = ref.name := hpair r' hr' hpatheq
            exact hnone e he ⟨hepp, hrn'.trans hnameEq⟩
          refine ⟨?_, ?_, ?_⟩
          · intro e he hepp
            rcases List.mem_append.mp he with he' | he'
            · obtain ⟨r, hr, hrn, hrl⟩ :=
                inv1 e (List.mem_of_mem_filter he') hepp
              exact ⟨r, List.mem_append_left _ hr, hrn, hrl⟩
            · rw [List.mem_singleton] at he'
              subst he'
              exact ⟨ref, List.mem_append_right _ (List.mem_singleton.mpr rfl),
                rfl, rfl⟩
          · intro r hr
            rcases List.mem_append.mp hr with hr | hr
            · obtain ⟨e, he, hepp, hen, hlook⟩ := inv2 r hr
              have hname : r.name ≠ ref.name := by
                intro hEq
                exact hnone e he ⟨hepp, hen.trans hEq⟩
              refine ⟨e, ?_, hepp, hen, ?_⟩
              · exact List.mem_append_left _
                  (List.mem_filter.mpr ⟨he, hsurvive e he hepp⟩)
              · rw [ensureHttplibFile_lookup_other st.files ref.name
                  library.description (gen st.nextTok) port _
                  (fun hEq => hname (httplibFileName_inj hEq))]
                exact hlook
            · rw [List.mem_singleton] at hr
              rw [hr]
              refine ⟨newE,
                List.mem_append_right _ (List.mem_singleton.mpr rfl), rfl, rfl, ?_⟩
              exact ensureHttplibFile_lookup_self st.files ref.name
                library.description (gen st.nextTok) port
          · show (((st.persisted.projects.filter (upsertKeeps newE)) ++ [newE]).filter
                (fun e => e.project_path == some pp)).Pairwise
              (fun a b => a.name ≠ b.name)
            rw [List.filter_append]
            have hnewFilter : ([newE].filter
                (fun e => e.project_path == some pp)) = [newE] := by
              simp [hnewE]
            rw [hnewFilter, List.pairwise_append]
            refine ⟨?_, by simp, ?_⟩
            · exact inv3.sublist
                ((List.filter_sublist st.persisted.projects).filter
                  (fun e : ProjectEntry => e.project_path == some pp))
            · intro a ha b hb
              rw [List.mem_singleton] at hb
              subst hb
              have haMem := List.mem_filter.mp ha
              have haOld := List.mem_of_mem_filter haMem.1
              have happ : a.project_path = some pp := by
                have := haMem.2
                simpa using this
              intro hEq
              exact hnone a haOld ⟨happ, by rw [hEq, hnewE]⟩

theorem ar_fold_inv (gen : Nat → String) (loadLib : String → Option Library)
    (pp : String) (port : Nat) (refs : List LibRef) :
    ∀ (processed : List LibRef) (st st' : ARState),
    (∀ r1 ∈ processed ++ refs, ∀ r2 ∈ processed ++ refs,
      r1.path = r2.path → r1.name = r2.name) →
    ARInv pp port processed st.persisted st.files →
    refs.foldlM (arStep gen loadLib pp port) st = some st' →
    ARInv pp port (processed ++ refs) st'.persisted st'.files := by
  induction refs with
  | nil =>
      intro processed st st' _ hinv hfold
      have hss : st = st' := by simpa using hfold
      subst hss
      simpa using hinv
  | cons r rs ih =>
      intro processed st st' hpaths hinv hfold
      rw [List.foldlM_cons] at hfold
      cases hstep : arStep gen loadLib pp port st r with
      | none => rw [hstep] at hfold; exact absurd hfold (by simp)
      | some st₁ =>
          rw [hstep] at hfold
          simp only [Option.bind_eq_bind, Option.some_bind] at hfold
          have hpair : ∀ x ∈ processed, x.path = r.path → x.name = r.name := by
            intro x hx hxy
            exact hpaths x (List.mem_append_left _ hx) r
              (List.mem_append_right _ (List.mem_cons_self _ _)) hxy
          have hinv₁ := arStep_inv gen loadLib pp port processed st st₁ r
            hpair hinv hstep
          have hpaths' : ∀ r1 ∈ (processed ++ [r]) ++ rs,
              ∀ r2 ∈ (processed ++ [r]) ++ rs,
              r1.path = r2.path → r1.name = r2.name := by
            intro r1 h1 r2 h2
            rw [List.append_assoc, List.singleton_append] at h1 h2
            exact hpaths r1 h1 r2 h2
          have := ih (processed ++ [r]) st₁ st' hpaths' hinv₁ hfold
          rw [List.append_assoc, List.singleton_append] at this
          exact this

theorem ar_fold_id (gen : Nat → String) (loadLib : String → Option Library)
    (pp : String) (port : Nat) (refs : List LibRef) (st : ARState)
    (h : ∀ ref ∈ refs, arStep gen loadLib pp port st ref = some st) :
    refs.foldlM (arStep gen loadLib pp port) st = some st := by
  induction refs with
  | nil => rfl
  | cons r rs ih =>
      rw [List.foldlM_cons, h r (List.mem_cons_self _ _)]
      simp only [Option.bind_eq_bind, Option.some_bind]
      exact ih (fun ref href => h ref (List.mem_cons_of_mem _ href))

/-- C9 (amended): provided no two entries of `kicodex.yaml` list the same
library path under different names, and the persistent registry holds no
prior entry for this project directory, a successful `try_auto_register`
is idempotent: the immediately repeated call (with any token generator and
library loader, which it never consults) succeeds, registers zero new
libraries, performs no file write in the project directory, and leaves the
persistent registry, the runtime registry and the project files
identical. -/
theorem auto_register_idempotent (gen gen2 : Nat → String)
    (loadLib loadLib2 : String → Option Library) (pp : String) (port : Nat)
    (config : ProjectConfig) (persisted : PersistedRegistry)
    (runtime : IMap Library) (files : IMap String) (n0 n1 : Nat)
    (c : Nat) (st1 : ARState)
    (Hpaths : ∀ r1 ∈ config.libraries, ∀ r2 ∈ config.libraries,
      r1.path = r2.path → r1.name = r2.name)
    (Hclean : ∀ e ∈ persisted.projects, e.project_path ≠ some pp)
    (Hcall1 : tryAutoRegister gen loadLib pp port config persisted runtime
      files n0 = some (c, st1)) :
    tryAutoRegister gen2 loadLib2 pp port config st1.persisted st1.runtime
        st1.files n1
      = some (0, { persisted := st1.persisted, runtime := st1.runtime
                   files := st1.files, nextTok := n1, newly := 0
                   writes := [] }) := by
  unfold tryAutoRegister at Hcall1
  set init1 : ARState :=
    { persisted := persisted, runtime := runtime, files := files
      nextTok := n0, newly := 0, writes := [] } with hinit1
  cases hfold1 : config.libraries.foldlM (arStep gen loadLib pp port) init1 with
  | none => rw [hfold1] at Hcall1; exact absurd Hcall1 (by simp)
  | some stF =>
      rw [hfold1] at Hcall1
      have Hc : some (stF.newly, stF) = some (c, st1) := Hcall1
      have hst1 : st1 = stF := (congrArg Prod.snd (Option.some.inj Hc)).symm
      have hinv0 : ARInv pp port [] init1.persisted init1.files := by
        refine ⟨?_, ?_, ?_⟩
        · intro e he hepp
          exact absurd hepp (Hclean e he)
        · intro r hr
          simp at hr
        · have hfilter : init1.persisted.projects.filter
              (fun e => e.project_path == some pp) = [] := by
            rw [List.filter_eq_nil_iff]
            intro e he
            simp only [beq_iff_eq]
            exact Hclean e he
          rw [hfilter]
          exact List.Pairwise.nil
      have hinv1 : ARInv pp port config.libraries stF.persisted stF.files := by
        have := ar_fold_inv gen loadLib pp port config.libraries [] init1 stF
          (by simpa using Hpaths) hinv0 hfold1
        simpa using this
      subst hst1
      obtain ⟨inv1, inv2, inv3⟩ := hinv1
      have hsteps : ∀ ref ∈ config.libraries,
          arStep gen2 loadLib2 pp port
            { persisted := st1.persisted, runtime := st1.runtime
              files := st1.files, nextTok := n1, newly := 0, writes := [] } ref
          = some { persisted := st1.persisted, runtime := st1.runtime
                   files := st1.files, nextTok := n1, newly := 0
                   writes := [] } := by
        intro ref href
        obtain ⟨e, he, hepp, hen, hlook⟩ := inv2 ref href
        exact arStep_registered gen2 loadLib2 pp port _ ref inv3 e he hepp
          (by rw [hen]) hlook
      unfold tryAutoRegister
      rw [ar_fold_id gen2 loadLib2 pp port config.libraries _ hsteps]
      rfl

def configW2 : ProjectConfig :=
  { libraries := [{ name := "x", path := "pa" }, { name := "y", path := "pb" }] }

def call1W : Option (Nat × ARState) :=
  tryAutoRegister genC loadLibC "Q" 1 configW2 { projects := [] } [] [] 0

def st1W : ARState :=
  match call1W with
  | some (_, st) => st
  | none => { persisted := { projects := [] }, runtime := [], files := []
              nextTok := 0, newly := 0, writes := [] }

set_option maxRecDepth 8000 in
theorem auto_register_idempotent_witness :
    tryAutoRegister genC loadLibC "Q" 1 configW2 st1W.persisted st1W.runtime
        st1W.files 7
      = some (0, { persisted := st1W.persisted, runtime := st1W.runtime
                   files := st1W.files, nextTok := 7, newly := 0
                   writes := [] }) :=
  auto_register_idempotent genC genC loadLibC loadLibC "Q" 1 configW2
    { projects := [] } [] [] 0 7 2 st1W (by decide) (by decide) rfl

end KiCodex
